import Mathlib

/-!
# Verification of the `classical-logic` repository (plogic / flogic packages)

Shallow embedding of the propositional-logic library:

* the `Proposition` variant family (`Atomic`/`Predicate`, `Not`, `And`, `Or`,
  `Implies`, `Iff`) shared by both package drafts (`src/plogic/core.py` and
  `src/flogic/core.py`);
* the lexer and recursive-descent parser of `src/plogic/parsing.py`
  (`_lex`, `_lex_accept`, `_Parser.bic/cond/disj/conj/neg/unit`, `prop`);
* the two evaluators: `flogic.core` (`_interpret`, strict: `&`, `|`,
  `(not l) | r`, `l is r`) and `plogic.core` (`_interpret`, built on
  Python's short-circuiting `and` / `or`);
* the structural accessors of `flogic.core` (`__getitem__`, `__iter__`,
  `degree`) and the name validation of `flogic.core.Predicate.__post_init__`.

Python `Mapping[str, bool]` is modelled as `String → Option Bool`
(`Mapping.get` is function application).  Python exceptions are modelled by
the `PyError` inductive; a raising function returns `Except PyError α`.
The Python parser pulls tokens lazily from the lexer generator; here the
token list is produced up front.  The two behaviours agree on every input
whose lexical error (if any) occurs no later than one token past the
consumed prefix, which covers every input considered below.  Recursive
descent is modelled with an explicit recursion budget (`fuel`); the budget
chosen for `prop` is proved sufficient for the inputs of the theorems.
Python's `str.isalpha`/`str.isalnum` are modelled by their ASCII
restrictions, which agree with them on every ASCII input (and with the
identifier regex `[a-zA-Z_][a-zA-Z0-9_]*` of `flogic.core`).
-/

namespace ClassicalLogic

/-- AST of the `Proposition` variant family (`plogic.core` names the leaf
`Atomic`, `flogic.core` names it `Predicate`; the tree shapes coincide). -/
inductive Proposition where
  | atomic : String → Proposition
  | not : Proposition → Proposition
  | and : Proposition → Proposition → Proposition
  | or : Proposition → Proposition → Proposition
  | implies : Proposition → Proposition → Proposition
  | iff : Proposition → Proposition → Proposition
deriving DecidableEq, Repr

/-- Python exception values that the embedded code can raise. -/
inductive PyError where
  | valueError : String → PyError
  | indexError : String → PyError
  | stopIteration : PyError
deriving DecidableEq, Repr

/-- Token types of `plogic.parsing._TokenType`. -/
inductive TokenType where
  | ATOMIC | NOT | AND | OR | IMPLIES | IFF | LPARENS | RPARENS
deriving DecidableEq, Repr

/-- A lexed token: `(_TokenType, value)` pair as yielded by `plogic.parsing._lex`. -/
abbrev Token := TokenType × String

/-- `plogic.parsing._UNEXP_END_OF_STR`. -/
def _UNEXP_END_OF_STR : String := "unexpected end of string"

/-- `plogic.parsing._unexp_char`. -/
def _unexp_char (c : Char) : String :=
  "unexpected character '" ++ c.toString ++ "'"

/-- `plogic.parsing._unexp_token`. -/
def _unexp_token (tokenValue : String) : String :=
  "unexpected token '" ++ tokenValue ++ "'"

/-- First character of an identifier: `c.isalpha() or c == '_'`
(`plogic.parsing._lex`, ASCII restriction of `str.isalpha`). -/
def identStart (c : Char) : Bool := c.isAlpha || c = '_'

/-- Continuation character of an identifier: `c.isalnum() or c == '_'`
(`plogic.parsing._lex`, ASCII restriction of `str.isalnum`). -/
def identCont (c : Char) : Bool := c.isAlphanum || c = '_'

/-- The whitespace characters skipped by the lexer: `" \t\f\r\n"`. -/
def isWS (c : Char) : Bool :=
  c = ' ' || c = '\t' || c = '\x0c' || c = '\r' || c = '\n'

/-- `plogic.parsing._lex_accept it expected`: take the next character and
compare; returns the rest of the character iterator. -/
def _lex_accept (it : List Char) (expected : Char) : Except PyError (List Char) :=
  match it with
  | [] => .error (.valueError _UNEXP_END_OF_STR)
  | c :: rest =>
      if c = expected then .ok rest
      else .error (.valueError (_unexp_char c))

/-- The maximal-munch identifier loop inside `plogic.parsing._lex`
(`while c := next(it, None): if c.isalnum() or c == '_': parts.append(c)`).
Returns the appended characters and the unconsumed remainder. -/
def takeIdent : List Char → List Char × List Char
  | [] => ([], [])
  | c :: rest =>
      if identCont c then
        let p := takeIdent rest
        (c :: p.1, p.2)
      else ([], c :: rest)

/-- Main loop of `plogic.parsing._lex`, with an explicit recursion budget.
Any `fuel` larger than the input length gives the loop's true behaviour
(`lexF_fuel_irrelevant` below). -/
def lexF : Nat → List Char → Except PyError (List Token)
  | 0, _ => .error (.valueError "recursion budget exhausted")
  | _ + 1, [] => .ok []
  | fuel + 1, c :: rest =>
      if c = '~' then ((TokenType.NOT, "~") :: ·) <$> lexF fuel rest
      else if c = '&' then ((TokenType.AND, "&") :: ·) <$> lexF fuel rest
      else if c = '|' then ((TokenType.OR, "|") :: ·) <$> lexF fuel rest
      else if c = '-' then
        match _lex_accept rest '>' with
        | .error e => .error e
        | .ok rest1 => ((TokenType.IMPLIES, "->") :: ·) <$> lexF fuel rest1
      else if c = '<' then
        match _lex_accept rest '-' with
        | .error e => .error e
        | .ok rest1 =>
            match _lex_accept rest1 '>' with
            | .error e => .error e
            | .ok rest2 => ((TokenType.IFF, "<->") :: ·) <$> lexF fuel rest2
      else if c = '(' then ((TokenType.LPARENS, "(") :: ·) <$> lexF fuel rest
      else if c = ')' then ((TokenType.RPARENS, ")") :: ·) <$> lexF fuel rest
      else if isWS c then lexF fuel rest
      else if identStart c then
        let p := takeIdent rest
        ((TokenType.ATOMIC, String.mk (c :: p.1)) :: ·) <$> lexF fuel p.2
      else .error (.valueError (_unexp_char c))

/-- `plogic.parsing._lex` on a character list. -/
def _lex (cs : List Char) : Except PyError (List Token) :=
  lexF (cs.length + 1) cs

/-- Grammar rules of `plogic.parsing._Parser`; `disjTail`/`conjTail` are the
`while`-loop bodies of `disj`/`conj`. -/
inductive Rule where
  | bic | cond | disj | disjTail | conj | conjTail | neg | unit
deriving DecidableEq, Repr

/-- The recursive-descent parser of `plogic.parsing._Parser`, one rule per
`Rule` tag, with an explicit recursion budget.  The parser state
`(current token, token stream)` is the head and tail of the token list.
`acc` is the accumulated left operand of the `disjTail`/`conjTail` loops
(unused by the other rules). -/
def parseR : Rule → Nat → Proposition → List Token → Except PyError (Proposition × List Token)
  | _, 0, _, _ => .error (.valueError "recursion budget exhausted")
  | .bic, fuel + 1, acc, toks =>
      match parseR .cond fuel acc toks with
      | .error e => .error e
      | .ok (left, rest) =>
          match rest with
          | (TokenType.IFF, _) :: rest1 =>
              match parseR .bic fuel acc rest1 with
              | .error e => .error e
              | .ok (right, rest2) => .ok (.iff left right, rest2)
          | _ => .ok (left, rest)
  | .cond, fuel + 1, acc, toks =>
      match parseR .disj fuel acc toks with
      | .error e => .error e
      | .ok (left, rest) =>
          match rest with
          | (TokenType.IMPLIES, _) :: rest1 =>
              match parseR .cond fuel acc rest1 with
              | .error e => .error e
              | .ok (right, rest2) => .ok (.implies left right, rest2)
          | _ => .ok (left, rest)
  | .disj, fuel + 1, acc, toks =>
      match parseR .conj fuel acc toks with
      | .error e => .error e
      | .ok (p, rest) => parseR .disjTail fuel p rest
  | .disjTail, fuel + 1, acc, toks =>
      match toks with
      | (TokenType.OR, _) :: rest =>
          match parseR .conj fuel acc rest with
          | .error e => .error e
          | .ok (q, rest1) => parseR .disjTail fuel (.or acc q) rest1
      | _ => .ok (acc, toks)
  | .conj, fuel + 1, acc, toks =>
      match parseR .neg fuel acc toks with
      | .error e => .error e
      | .ok (p, rest) => parseR .conjTail fuel p rest
  | .conjTail, fuel + 1, acc, toks =>
      match toks with
      | (TokenType.AND, _) :: rest =>
          match parseR .neg fuel acc rest with
          | .error e => .error e
          | .ok (q, rest1) => parseR .conjTail fuel (.and acc q) rest1
      | _ => .ok (acc, toks)
  | .neg, fuel + 1, acc, toks =>
      match toks with
      | (TokenType.NOT, _) :: rest =>
          match parseR .neg fuel acc rest with
          | .error e => .error e
          | .ok (p, rest1) => .ok (.not p, rest1)
      | _ => parseR .unit fuel acc toks
  | .unit, fuel + 1, acc, toks =>
      match toks with
      | (TokenType.ATOMIC, v) :: rest => .ok (.atomic v, rest)
      | (TokenType.LPARENS, _) :: rest =>
          match parseR .bic fuel acc rest with
          | .error e => .error e
          | .ok (p, rest1) =>
              match rest1 with
              | (TokenType.RPARENS, _) :: rest2 => .ok (p, rest2)
              | [] => .error (.valueError _UNEXP_END_OF_STR)
              | (_, v) :: _ => .error (.valueError (_unexp_token v))
      | [] => .error (.valueError _UNEXP_END_OF_STR)
      | (_, v) :: _ => .error (.valueError (_unexp_token v))

/-- Placeholder accumulator for rules that do not use `acc`. -/
def noAcc : Proposition := .atomic ""

/-- `plogic.parsing.prop`: lex, then `_Parser(text).bic()`.
`_Parser.__init__` pulls the first token with `next(self._token_stream)`
and therefore leaks a bare `StopIteration` when the input has no tokens.
No exhaustion check is performed on the remaining tokens. -/
def prop (text : String) : Except PyError Proposition :=
  match _lex text.data with
  | .error e => .error e
  | .ok [] => .error .stopIteration
  | .ok toks =>
      match parseR .bic (10 * toks.length + 10) noAcc toks with
      | .error e => .error e
      | .ok (p, _rest) => .ok p

/-- `flogic.core` `degree()`: `0` for `Predicate`, `1` for `_LogicOp1`
subclasses, `2` for `_LogicOp2` subclasses. -/
def degree : Proposition → Nat
  | .atomic _ => 0
  | .not _ => 1
  | .and _ _ => 2
  | .or _ _ => 2
  | .implies _ _ => 2
  | .iff _ _ => 2

/-- `flogic.core` `__iter__`: `iter(())` for `Predicate`,
`iter((self.inner,))` for `_LogicOp1`, `iter((self.left, self.right))` for
`_LogicOp2`. -/
def children : Proposition → List Proposition
  | .atomic _ => []
  | .not p => [p]
  | .and l r => [l, r]
  | .or l r => [l, r]
  | .implies l r => [l, r]
  | .iff l r => [l, r]

/-- `flogic.core` `__getitem__` (index is a Python `int`, so negatives are
possible and simply fail the equality tests). -/
def getitem : Proposition → Int → Except PyError Proposition
  | .atomic _, index =>
      .error (.indexError
        ("Predicate has no component propositions; got " ++ toString index))
  | .not p, index =>
      if index = 0 then .ok p
      else .error (.indexError ("Expected 0; got " ++ toString index))
  | .and l r, index =>
      if index = 0 then .ok l
      else if index = 1 then .ok r
      else .error (.indexError ("Expected 0 or 1; got " ++ toString index))
  | .or l r, index =>
      if index = 0 then .ok l
      else if index = 1 then .ok r
      else .error (.indexError ("Expected 0 or 1; got " ++ toString index))
  | .implies l r, index =>
      if index = 0 then .ok l
      else if index = 1 then .ok r
      else .error (.indexError ("Expected 0 or 1; got " ++ toString index))
  | .iff l r, index =>
      if index = 0 then .ok l
      else if index = 1 then .ok r
      else .error (.indexError ("Expected 0 or 1; got " ++ toString index))

/-- `flogic.core._ident_pattern.fullmatch(name)`: the name fully matches
the regular expression `[a-zA-Z_][a-zA-Z0-9_]*`. -/
def identFullmatch (s : String) : Bool :=
  match s.data with
  | [] => false
  | c :: cs => identStart c && cs.all identCont

/-- `flogic.core.Predicate` construction (`__post_init__` validates the name
once, raising `ValueError` on a failed fullmatch). -/
def flogicPredicateNew (name : String) : Except PyError Proposition :=
  if identFullmatch name then .ok (.atomic name)
  else .error (.valueError ("Invalid predicate name: '" ++ name ++ "'"))

/-- `plogic.core.Atomic` construction: a plain frozen dataclass with no
`__post_init__`, so any string is accepted. -/
def plogicAtomicNew (name : String) : Except PyError Proposition :=
  .ok (.atomic name)

/-- `flogic.core` `_interpret`: the strict evaluator.  `And` uses `&`, `Or`
uses `|`, `Implies` uses `(not l) | r`, `Iff` uses `l is r`; Python
evaluates both operand recursions before combining, so errors from either
side propagate. -/
def flogicInterpret : Proposition → (String → Option Bool) → Except PyError Bool
  | .atomic name, i =>
      match i name with
      | some b => .ok b
      | none =>
          .error (.valueError
            ("Predicate '" ++ name ++ "' not unassigned when interpreting"))
  | .not p, i =>
      match flogicInterpret p i with
      | .error e => .error e
      | .ok b => .ok (!b)
  | .and l r, i =>
      match flogicInterpret l i with
      | .error e => .error e
      | .ok a =>
          match flogicInterpret r i with
          | .error e => .error e
          | .ok b => .ok (a && b)
  | .or l r, i =>
      match flogicInterpret l i with
      | .error e => .error e
      | .ok a =>
          match flogicInterpret r i with
          | .error e => .error e
          | .ok b => .ok (a || b)
  | .implies l r, i =>
      match flogicInterpret l i with
      | .error e => .error e
      | .ok a =>
          match flogicInterpret r i with
          | .error e => .error e
          | .ok b => .ok (!a || b)
  | .iff l r, i =>
      match flogicInterpret l i with
      | .error e => .error e
      | .ok a =>
          match flogicInterpret r i with
          | .error e => .error e
          | .ok b => .ok (a == b)

/-- `plogic.core` `_interpret`: built on Python's `and`, `or`, which
short-circuit.  `And`: `left and right` skips `right` when `left` is
false; `Or`: skips when `left` is true; `Implies`: `not left or right`
skips `right` when `left` is false; `Iff` (`left == right`) evaluates
both. -/
def plogicInterpret : Proposition → (String → Option Bool) → Except PyError Bool
  | .atomic name, i =>
      match i name with
      | some b => .ok b
      | none =>
          .error (.valueError ("Atomic '" ++ name ++ "' was left unassigned"))
  | .not p, i =>
      match plogicInterpret p i with
      | .error e => .error e
      | .ok b => .ok (!b)
  | .and l r, i =>
      match plogicInterpret l i with
      | .error e => .error e
      | .ok a => if a then plogicInterpret r i else .ok false
  | .or l r, i =>
      match plogicInterpret l i with
      | .error e => .error e
      | .ok a => if a then .ok true else plogicInterpret r i
  | .implies l r, i =>
      match plogicInterpret l i with
      | .error e => .error e
      | .ok a => if a then plogicInterpret r i else .ok true
  | .iff l r, i =>
      match plogicInterpret l i with
      | .error e => .error e
      | .ok a =>
          match plogicInterpret r i with
          | .error e => .error e
          | .ok b => .ok (a == b)

/-- `plogic.core` `__str__` (character list): `Atomic` renders bare, `Not`
as `~{inner}`, each binary node as `({left} op {right})`.  Identical to
`flogic.core` `formal()`. -/
def renderChars : Proposition → List Char
  | .atomic name => name.data
  | .not p => '~' :: renderChars p
  | .and l r =>
      '(' :: (renderChars l ++ (' ' :: '&' :: ' ' :: renderChars r ++ [')']))
  | .or l r =>
      '(' :: (renderChars l ++ (' ' :: '|' :: ' ' :: renderChars r ++ [')']))
  | .implies l r =>
      '(' :: (renderChars l ++ (' ' :: '-' :: '>' :: ' ' :: renderChars r ++ [')']))
  | .iff l r =>
      '(' :: (renderChars l ++ (' ' :: '<' :: '-' :: '>' :: ' ' :: renderChars r ++ [')']))

/-- `plogic.core` `__str__` as a `String`. -/
def render (t : Proposition) : String := String.mk (renderChars t)

/-- Token stream of the formal rendering of a proposition. -/
def toksList : Proposition → List Token
  | .atomic name => [(TokenType.ATOMIC, name)]
  | .not p => (TokenType.NOT, "~") :: toksList p
  | .and l r =>
      (TokenType.LPARENS, "(") ::
        (toksList l ++ (TokenType.AND, "&") :: toksList r ++ [(TokenType.RPARENS, ")")])
  | .or l r =>
      (TokenType.LPARENS, "(") ::
        (toksList l ++ (TokenType.OR, "|") :: toksList r ++ [(TokenType.RPARENS, ")")])
  | .implies l r =>
      (TokenType.LPARENS, "(") ::
        (toksList l ++ (TokenType.IMPLIES, "->") :: toksList r ++ [(TokenType.RPARENS, ")")])
  | .iff l r =>
      (TokenType.LPARENS, "(") ::
        (toksList l ++ (TokenType.IFF, "<->") :: toksList r ++ [(TokenType.RPARENS, ")")])

/-- Node count of a proposition (used as a recursion-budget measure). -/
def size : Proposition → Nat
  | .atomic _ => 1
  | .not p => size p + 1
  | .and l r => size l + size r + 1
  | .or l r => size l + size r + 1
  | .implies l r => size l + size r + 1
  | .iff l r => size l + size r + 1

/-- Validity of an atomic name: the data-model invariant
(`Predicate.name` matches `[a-zA-Z_][a-zA-Z0-9_]*`). -/
def validIdent (s : String) : Bool := identFullmatch s

/-- Well-formedness of a proposition: every atomic name is a valid
identifier (the "valid `t`" side condition of the round-trip law). -/
def wfProp : Proposition → Bool
  | .atomic name => validIdent name
  | .not p => wfProp p
  | .and l r => wfProp l && wfProp r
  | .or l r => wfProp l && wfProp r
  | .implies l r => wfProp l && wfProp r
  | .iff l r => wfProp l && wfProp r

/-- The head of the character list (if any) cannot continue an identifier. -/
def headNotCont (cs : List Char) : Bool :=
  match cs with
  | [] => true
  | c :: _ => !identCont c

/-- The head token (if any) is not of the given type. -/
def headIsNot (tt : TokenType) (toks : List Token) : Bool :=
  match toks with
  | [] => true
  | (t, _) :: _ => !(t = tt)

/-- The head token (if any) continues no binary-operator loop of the
parser: it is not `&`, `|`, `->` or `<->`. -/
def stopTok (toks : List Token) : Bool :=
  match toks with
  | [] => true
  | (t, _) :: _ =>
      !(t = .AND || t = .OR || t = .IMPLIES || t = .IFF)

/-- Source text of a binary operator, surrounded by single spaces. -/
def sepChars : TokenType → List Char
  | .AND => [' ', '&', ' ']
  | .OR => [' ', '|', ' ']
  | .IMPLIES => [' ', '-', '>', ' ']
  | .IFF => [' ', '<', '-', '>', ' ']
  | _ => []

/-- The lexed token of a binary operator. -/
def sepTok : TokenType → Token
  | .AND => (.AND, "&")
  | .OR => (.OR, "|")
  | .IMPLIES => (.IMPLIES, "->")
  | .IFF => (.IFF, "<->")
  | t => (t, "")

/-- Characters of the chain `n₀ op n₁ op … op nₖ`. -/
def chainChars (sep : List Char) : String → List String → List Char
  | n, [] => n.data
  | n, m :: ms => n.data ++ sep ++ chainChars sep m ms

/-- The chain `n₀ op n₁ op … op nₖ` as a string. -/
def chainStr (sep : List Char) (n : String) (ns : List String) : String :=
  String.mk (chainChars sep n ns)

/-- Tokens of the tail `op n₁ op n₂ … op nₖ` of a chain. -/
def tailToks (sep : Token) : List String → List Token
  | [] => []
  | m :: ms => sep :: (TokenType.ATOMIC, m) :: tailToks sep ms

/-- Left-nested tree of a chain of atomics under a binary constructor:
`op (op (op n₀ n₁) n₂) …`. -/
def leftNest (op : Proposition → Proposition → Proposition)
    (n : String) (ns : List String) : Proposition :=
  List.foldl (fun a m => op a (.atomic m)) (.atomic n) ns

/-- Right-nested tree of a chain of atomics under a binary constructor:
`op n₀ (op n₁ (op n₂ …))`. -/
def rightNest (op : Proposition → Proposition → Proposition) :
    String → List String → Proposition
  | n, [] => .atomic n
  | n, m :: ms => op (.atomic n) (rightNest op m ms)

/-- The interpretation `{P: true, Q: false}`. -/
def interpPTrueQFalse : String → Option Bool :=
  fun n => if n = "P" then some true else if n = "Q" then some false else none

/-- The interpretation `{P: false, Q: false}`. -/
def interpPFalseQFalse : String → Option Bool :=
  fun n => if n = "P" then some false else if n = "Q" then some false else none

/-- The interpretation `{P: false}` (`Q` left unassigned). -/
def interpPFalseOnly : String → Option Bool :=
  fun n => if n = "P" then some false else none

end ClassicalLogic

namespace ClassicalLogic

/-! ## Theorems -/

/-! ### Lexer lemmas -/

theorem takeIdent_length_le (cs : List Char) :
    (takeIdent cs).2.length ≤ cs.length := by
  induction cs with
  | nil => simp [takeIdent]
  | cons c rest ih =>
      by_cases h : identCont c
      · simp only [takeIdent, h, if_true]
        simpa using Nat.le_succ_of_le ih
      · simp [takeIdent, h]

theorem _lex_accept_ok {it : List Char} {e : Char} {out : List Char}
    (h : _lex_accept it e = .ok out) : it = e :: out := by
  cases it with
  | nil => simp [_lex_accept] at h
  | cons c rest =>
      by_cases hc : c = e
      · subst hc
        simp only [_lex_accept, if_pos rfl] at h
        cases h
        rfl
      · simp [_lex_accept, hc] at h

theorem lexF_irrel : ∀ (f1 : Nat) (cs : List Char) (f2 : Nat),
    cs.length < f1 → cs.length < f2 → lexF f1 cs = lexF f2 cs := by
  intro f1
  induction f1 with
  | zero => intro cs f2 h1 _; omega
  | succ g1 ih =>
      intro cs f2 h1 h2
      cases cs with
      | nil =>
          cases f2 with
          | zero => omega
          | succ g2 => rfl
      | cons c rest =>
          cases f2 with
          | zero => omega
          | succ g2 =>
              have hr : rest.length < g1 := by simp at h1; omega
              have hr2 : rest.length < g2 := by simp at h2; omega
              have htk : (takeIdent rest).2.length < g1 :=
                lt_of_le_of_lt (takeIdent_length_le rest) hr
              have htk2 : (takeIdent rest).2.length < g2 :=
                lt_of_le_of_lt (takeIdent_length_le rest) hr2
              simp only [lexF]
              by_cases c1 : c = '~'
              · rw [if_pos c1, if_pos c1, ih rest g2 hr hr2]
              rw [if_neg c1, if_neg c1]
              by_cases c2 : c = '&'
              · rw [if_pos c2, if_pos c2, ih rest g2 hr hr2]
              rw [if_neg c2, if_neg c2]
              by_cases c3 : c = '|'
              · rw [if_pos c3, if_pos c3, ih rest g2 hr hr2]
              rw [if_neg c3, if_neg c3]
              by_cases c4 : c = '-'
              · rw [if_pos c4, if_pos c4]
                cases hacc : _lex_accept rest '>' with
                | error e => rfl
                | ok rest1 =>
                    obtain rfl : rest = '>' :: rest1 := _lex_accept_ok hacc
                    dsimp only
                    rw [ih rest1 g2 (by simp at hr; omega) (by simp at hr2; omega)]
              rw [if_neg c4, if_neg c4]
              by_cases c5 : c = '<'
              · rw [if_pos c5, if_pos c5]
                cases hacc : _lex_accept rest '-' with
                | error e => rfl
                | ok rest1 =>
                    obtain rfl : rest = '-' :: rest1 := _lex_accept_ok hacc
                    dsimp only
                    cases hacc2 : _lex_accept rest1 '>' with
                    | error e => rfl
                    | ok rest2 =>
                        obtain rfl : rest1 = '>' :: rest2 := _lex_accept_ok hacc2
                        dsimp only
                        rw [ih rest2 g2 (by simp at hr; omega)
                          (by simp at hr2; omega)]
              rw [if_neg c5, if_neg c5]
              by_cases c6 : c = '('
              · rw [if_pos c6, if_pos c6, ih rest g2 hr hr2]
              rw [if_neg c6, if_neg c6]
              by_cases c7 : c = ')'
              · rw [if_pos c7, if_pos c7, ih rest g2 hr hr2]
              rw [if_neg c7, if_neg c7]
              by_cases c8 : isWS c = true
              · rw [if_pos c8, if_pos c8, ih rest g2 hr hr2]
              rw [if_neg c8, if_neg c8]
              by_cases c9 : identStart c = true
              · rw [if_pos c9, if_pos c9, ih (takeIdent rest).2 g2 htk htk2]
              rw [if_neg c9, if_neg c9]

theorem lex_nil : _lex [] = .ok [] := rfl

theorem lex_tilde {cs : List Char} {ts : List Token} (h : _lex cs = .ok ts) :
    _lex ('~' :: cs) = .ok ((TokenType.NOT, "~") :: ts) := by
  rw [show _lex ('~' :: cs) =
    ((TokenType.NOT, "~") :: ·) <$> _lex cs from rfl, h]
  rfl

theorem lex_amp {cs : List Char} {ts : List Token} (h : _lex cs = .ok ts) :
    _lex ('&' :: cs) = .ok ((TokenType.AND, "&") :: ts) := by
  rw [show _lex ('&' :: cs) =
    ((TokenType.AND, "&") :: ·) <$> _lex cs from rfl, h]
  rfl

theorem lex_bar {cs : List Char} {ts : List Token} (h : _lex cs = .ok ts) :
    _lex ('|' :: cs) = .ok ((TokenType.OR, "|") :: ts) := by
  rw [show _lex ('|' :: cs) =
    ((TokenType.OR, "|") :: ·) <$> _lex cs from rfl, h]
  rfl

theorem lex_lparen {cs : List Char} {ts : List Token} (h : _lex cs = .ok ts) :
    _lex ('(' :: cs) = .ok ((TokenType.LPARENS, "(") :: ts) := by
  rw [show _lex ('(' :: cs) =
    ((TokenType.LPARENS, "(") :: ·) <$> _lex cs from rfl, h]
  rfl

theorem lex_rparen {cs : List Char} {ts : List Token} (h : _lex cs = .ok ts) :
    _lex (')' :: cs) = .ok ((TokenType.RPARENS, ")") :: ts) := by
  rw [show _lex (')' :: cs) =
    ((TokenType.RPARENS, ")") :: ·) <$> _lex cs from rfl, h]
  rfl

theorem lex_arrow {cs : List Char} {ts : List Token} (h : _lex cs = .ok ts) :
    _lex ('-' :: '>' :: cs) = .ok ((TokenType.IMPLIES, "->") :: ts) := by
  rw [show _lex ('-' :: '>' :: cs) =
    ((TokenType.IMPLIES, "->") :: ·) <$> lexF (cs.length + 2) cs from rfl]
  rw [lexF_irrel (cs.length + 2) cs (cs.length + 1) (by omega) (by omega)]
  rw [show lexF (cs.length + 1) cs = _lex cs from rfl, h]
  rfl

theorem lex_darrow {cs : List Char} {ts : List Token} (h : _lex cs = .ok ts) :
    _lex ('<' :: '-' :: '>' :: cs) = .ok ((TokenType.IFF, "<->") :: ts) := by
  rw [show _lex ('<' :: '-' :: '>' :: cs) =
    ((TokenType.IFF, "<->") :: ·) <$> lexF (cs.length + 3) cs from rfl]
  rw [lexF_irrel (cs.length + 3) cs (cs.length + 1) (by omega) (by omega)]
  rw [show lexF (cs.length + 1) cs = _lex cs from rfl, h]
  rfl

/-- Characters opening an identifier hit none of the operator, separator
or whitespace branches of the lexer. -/
theorem identStart_not_special {c : Char} (h : identStart c = true) :
    c ≠ '~' ∧ c ≠ '&' ∧ c ≠ '|' ∧ c ≠ '-' ∧ c ≠ '<' ∧ c ≠ '(' ∧ c ≠ ')' ∧
    isWS c = false := by
  refine ⟨?_, ?_, ?_, ?_, ?_, ?_, ?_, ?_⟩
  · intro hc; subst hc; revert h; decide
  · intro hc; subst hc; revert h; decide
  · intro hc; subst hc; revert h; decide
  · intro hc; subst hc; revert h; decide
  · intro hc; subst hc; revert h; decide
  · intro hc; subst hc; revert h; decide
  · intro hc; subst hc; revert h; decide
  · cases hws : isWS c with
    | false => rfl
    | true =>
        exfalso
        simp only [isWS, Bool.or_eq_true, decide_eq_true_eq] at hws
        rcases hws with (((rfl | rfl) | rfl) | rfl) | rfl <;> (revert h; decide)

/-- Whitespace characters hit none of the earlier operator branches. -/
theorem isWS_not_special {c : Char} (h : isWS c = true) :
    c ≠ '~' ∧ c ≠ '&' ∧ c ≠ '|' ∧ c ≠ '-' ∧ c ≠ '<' ∧ c ≠ '(' ∧ c ≠ ')' := by
  refine ⟨?_, ?_, ?_, ?_, ?_, ?_, ?_⟩ <;> (intro hc; subst hc; revert h; decide)

theorem lex_ws {c : Char} {cs : List Char} {ts : List Token}
    (hws : isWS c = true) (h : _lex cs = .ok ts) :
    _lex (c :: cs) = .ok ts := by
  obtain ⟨n1, n2, n3, n4, n5, n6, n7⟩ := isWS_not_special hws
  show lexF (cs.length + 1 + 1) (c :: cs) = _
  simp only [lexF]
  rw [if_neg (by simp [n1]), if_neg (by simp [n2]), if_neg (by simp [n3]),
    if_neg (by simp [n4]), if_neg (by simp [n5]), if_neg (by simp [n6]),
    if_neg (by simp [n7]), if_pos (by simp [hws])]
  rw [lexF_irrel (cs.length + 1) cs (cs.length + 1) (by omega) (by omega)]
  exact h

theorem takeIdent_append {xs cs : List Char}
    (hx : ∀ c ∈ xs, identCont c = true) (hcs : headNotCont cs = true) :
    takeIdent (xs ++ cs) = (xs, cs) := by
  induction xs with
  | nil =>
      cases cs with
      | nil => rfl
      | cons c rest =>
          have : identCont c = false := by
            simpa [headNotCont] using hcs
          simp [takeIdent, this]
  | cons x xs ih =>
      have hx0 : identCont x = true := hx x (by simp)
      have hx' : ∀ c ∈ xs, identCont c = true := fun c hc => hx c (by simp [hc])
      simp [takeIdent, hx0, ih hx']

theorem lex_ident {c : Char} {xs cs : List Char} {ts : List Token}
    (hc : identStart c = true) (hxs : ∀ d ∈ xs, identCont d = true)
    (hcs : headNotCont cs = true) (h : _lex cs = .ok ts) :
    _lex ((c :: xs) ++ cs) =
      .ok ((TokenType.ATOMIC, String.mk (c :: xs)) :: ts) := by
  obtain ⟨n1, n2, n3, n4, n5, n6, n7, n8⟩ := identStart_not_special hc
  show lexF ((xs ++ cs).length + 1 + 1) (c :: (xs ++ cs)) = _
  simp only [lexF]
  rw [if_neg (by simp [n1]), if_neg (by simp [n2]), if_neg (by simp [n3]),
    if_neg (by simp [n4]), if_neg (by simp [n5]), if_neg (by simp [n6]),
    if_neg (by simp [n7]), if_neg (by simp [n8]), if_pos (by simp [hc])]
  rw [takeIdent_append hxs hcs]
  rw [lexF_irrel ((xs ++ cs).length + 1) cs (cs.length + 1)
    (by simp; omega) (by omega)]
  rw [show lexF (cs.length + 1) cs = _lex cs from rfl, h]
  rfl

/-! ### Parser lemmas

Each lemma unfolds one rule of `parseR` at an explicit successor budget,
taking the behaviour of the inner calls as hypotheses. -/

theorem parseR_ok_fuel_pos {r : Rule} {fuel : Nat} {acc : Proposition}
    {toks : List Token} {res : Proposition × List Token}
    (h : parseR r fuel acc toks = .ok res) : ∃ g, fuel = g + 1 := by
  cases fuel with
  | zero => simp [parseR] at h
  | succ g => exact ⟨g, rfl⟩

theorem conjTail_stop (f : Nat) (acc : Proposition) (toks : List Token)
    (h : headIsNot .AND toks = true) :
    parseR .conjTail (f + 1) acc toks = .ok (acc, toks) := by
  cases toks with
  | nil => rfl
  | cons t rest =>
      obtain ⟨tt, v⟩ := t
      cases tt <;> first | rfl | simp [headIsNot] at h

theorem disjTail_stop (f : Nat) (acc : Proposition) (toks : List Token)
    (h : headIsNot .OR toks = true) :
    parseR .disjTail (f + 1) acc toks = .ok (acc, toks) := by
  cases toks with
  | nil => rfl
  | cons t rest =>
      obtain ⟨tt, v⟩ := t
      cases tt <;> first | rfl | simp [headIsNot] at h

theorem neg_not (f : Nat) {acc : Proposition} {toks : List Token}
    {p : Proposition} {rest : List Token} (v : String)
    (h : parseR .neg f acc toks = .ok (p, rest)) :
    parseR .neg (f + 1) acc ((TokenType.NOT, v) :: toks) = .ok (.not p, rest) := by
  simp only [parseR, h]

theorem neg_unit (f : Nat) {acc : Proposition} {toks : List Token}
    {res : Proposition × List Token} (hh : headIsNot .NOT toks = true)
    (h : parseR .unit f acc toks = .ok res) :
    parseR .neg (f + 1) acc toks = .ok res := by
  cases toks with
  | nil => exact h
  | cons t rest =>
      obtain ⟨tt, v⟩ := t
      cases tt <;> first
        | exact h
        | simp [headIsNot] at hh

theorem unit_atomic (f : Nat) (acc : Proposition) (v : String)
    (rest : List Token) :
    parseR .unit (f + 1) acc ((TokenType.ATOMIC, v) :: rest) =
      .ok (.atomic v, rest) := rfl

theorem unit_parens (f : Nat) {acc : Proposition} {toks : List Token}
    {p : Proposition} {rest : List Token} (v w : String)
    (h : parseR .bic f acc toks = .ok (p, (TokenType.RPARENS, w) :: rest)) :
    parseR .unit (f + 1) acc ((TokenType.LPARENS, v) :: toks) = .ok (p, rest) := by
  simp only [parseR, h]

theorem conj_def (f : Nat) {acc : Proposition} {toks : List Token}
    {p : Proposition} {rest : List Token} {res : Proposition × List Token}
    (h1 : parseR .neg f acc toks = .ok (p, rest))
    (h2 : parseR .conjTail f p rest = .ok res) :
    parseR .conj (f + 1) acc toks = .ok res := by
  simp only [parseR, h1]
  exact h2

theorem conjTail_and (f : Nat) {acc : Proposition} {toks : List Token}
    {q : Proposition} {rest : List Token} {res : Proposition × List Token}
    (v : String)
    (h1 : parseR .neg f acc toks = .ok (q, rest))
    (h2 : parseR .conjTail f (.and acc q) rest = .ok res) :
    parseR .conjTail (f + 1) acc ((TokenType.AND, v) :: toks) = .ok res := by
  simp only [parseR, h1]
  exact h2

theorem disj_def (f : Nat) {acc : Proposition} {toks : List Token}
    {p : Proposition} {rest : List Token} {res : Proposition × List Token}
    (h1 : parseR .conj f acc toks = .ok (p, rest))
    (h2 : parseR .disjTail f p rest = .ok res) :
    parseR .disj (f + 1) acc toks = .ok res := by
  simp only [parseR, h1]
  exact h2

theorem disjTail_or (f : Nat) {acc : Proposition} {toks : List Token}
    {q : Proposition} {rest : List Token} {res : Proposition × List Token}
    (v : String)
    (h1 : parseR .conj f acc toks = .ok (q, rest))
    (h2 : parseR .disjTail f (.or acc q) rest = .ok res) :
    parseR .disjTail (f + 1) acc ((TokenType.OR, v) :: toks) = .ok res := by
  simp only [parseR, h1]
  exact h2

theorem cond_stop (f : Nat) {acc : Proposition} {toks : List Token}
    {p : Proposition} {rest : List Token}
    (h1 : parseR .disj f acc toks = .ok (p, rest))
    (hstop : headIsNot .IMPLIES rest = true) :
    parseR .cond (f + 1) acc toks = .ok (p, rest) := by
  simp only [parseR, h1]
  cases rest with
  | nil => rfl
  | cons t tl =>
      obtain ⟨tt, v⟩ := t
      cases tt <;> first | rfl | simp [headIsNot] at hstop

theorem cond_implies (f : Nat) {acc : Proposition} {toks : List Token}
    {p : Proposition} {rest1 : List Token} {q : Proposition}
    {rest2 : List Token} (v : String)
    (h1 : parseR .disj f acc toks = .ok (p, (TokenType.IMPLIES, v) :: rest1))
    (h2 : parseR .cond f acc rest1 = .ok (q, rest2)) :
    parseR .cond (f + 1) acc toks = .ok (.implies p q, rest2) := by
  simp only [parseR, h1, h2]

theorem bic_stop (f : Nat) {acc : Proposition} {toks : List Token}
    {p : Proposition} {rest : List Token}
    (h1 : parseR .cond f acc toks = .ok (p, rest))
    (hstop : headIsNot .IFF rest = true) :
    parseR .bic (f + 1) acc toks = .ok (p, rest) := by
  simp only [parseR, h1]
  cases rest with
  | nil => rfl
  | cons t tl =>
      obtain ⟨tt, v⟩ := t
      cases tt <;> first | rfl | simp [headIsNot] at hstop

theorem bic_iff (f : Nat) {acc : Proposition} {toks : List Token}
    {p : Proposition} {rest1 : List Token} {q : Proposition}
    {rest2 : List Token} (v : String)
    (h1 : parseR .cond f acc toks = .ok (p, (TokenType.IFF, v) :: rest1))
    (h2 : parseR .bic f acc rest1 = .ok (q, rest2)) :
    parseR .bic (f + 1) acc toks = .ok (.iff p q, rest2) := by
  simp only [parseR, h1, h2]

theorem stopTok_spec {toks : List Token} (h : stopTok toks = true) :
    headIsNot .AND toks = true ∧ headIsNot .OR toks = true ∧
    headIsNot .IMPLIES toks = true ∧ headIsNot .IFF toks = true := by
  cases toks with
  | nil => exact ⟨rfl, rfl, rfl, rfl⟩
  | cons t rest =>
      obtain ⟨tt, v⟩ := t
      cases tt <;> simp_all [stopTok, headIsNot]

theorem size_pos (t : Proposition) : 1 ≤ size t := by
  cases t <;> simp [size]

/-- Parsing the token stream of a formal rendering at the `neg` level
consumes exactly those tokens and returns the rendered proposition. -/
theorem neg_toksList : ∀ (t : Proposition) (acc : Proposition)
    (rest : List Token) (fuel : Nat), 10 * size t ≤ fuel →
    parseR .neg fuel acc (toksList t ++ rest) = .ok (t, rest) := by
  intro t
  induction t with
  | atomic n =>
      intro acc rest fuel hf
      obtain ⟨g, rfl⟩ : ∃ g, fuel = g + 2 :=
        ⟨fuel - 2, by simp [size] at hf; omega⟩
      exact neg_unit (g + 1) rfl (unit_atomic g acc n rest)
  | not p ih =>
      intro acc rest fuel hf
      obtain ⟨g, rfl⟩ : ∃ g, fuel = g + 1 :=
        ⟨fuel - 1, by simp [size] at hf; omega⟩
      have hp : parseR .neg g acc (toksList p ++ rest) = .ok (p, rest) :=
        ih acc rest g (by simp [size] at hf; omega)
      simpa only [toksList, List.cons_append] using neg_not g "~" hp
  | and l r ihl ihr =>
      intro acc rest fuel hf
      have hsl := size_pos l
      have hsr := size_pos r
      simp only [size] at hf
      obtain ⟨g, rfl⟩ : ∃ g, fuel = g + 8 := ⟨fuel - 8, by omega⟩
      have hl : parseR .neg (g + 2) acc (toksList l ++
          ((TokenType.AND, "&") :: (toksList r ++ ((TokenType.RPARENS, ")") :: rest)))) =
          .ok (l, (TokenType.AND, "&") :: (toksList r ++ ((TokenType.RPARENS, ")") :: rest))) :=
        ihl acc _ (g + 2) (by omega)
      have hr : parseR .neg (g + 1) l (toksList r ++ ((TokenType.RPARENS, ")") :: rest)) =
          .ok (r, (TokenType.RPARENS, ")") :: rest) :=
        ihr l _ (g + 1) (by omega)
      have t1 : parseR .conjTail (g + 1) (Proposition.and l r)
          ((TokenType.RPARENS, ")") :: rest) = .ok (.and l r, (TokenType.RPARENS, ")") :: rest) :=
        conjTail_stop g _ _ rfl
      have t2 : parseR .conjTail (g + 2) l
          ((TokenType.AND, "&") :: (toksList r ++ ((TokenType.RPARENS, ")") :: rest))) =
          .ok (.and l r, (TokenType.RPARENS, ")") :: rest) :=
        conjTail_and (g + 1) "&" hr t1
      have t3 : parseR .conj (g + 3) acc (toksList l ++
          ((TokenType.AND, "&") :: (toksList r ++ ((TokenType.RPARENS, ")") :: rest)))) =
          .ok (.and l r, (TokenType.RPARENS, ")") :: rest) :=
        conj_def (g + 2) hl t2
      have t4 : parseR .disjTail (g + 3) (Proposition.and l r)
          ((TokenType.RPARENS, ")") :: rest) = .ok (.and l r, (TokenType.RPARENS, ")") :: rest) :=
        disjTail_stop (g + 2) _ _ rfl
      have t5 : parseR .disj (g + 4) acc (toksList l ++
          ((TokenType.AND, "&") :: (toksList r ++ ((TokenType.RPARENS, ")") :: rest)))) =
          .ok (.and l r, (TokenType.RPARENS, ")") :: rest) :=
        disj_def (g + 3) t3 t4
      have t6 : parseR .cond (g + 5) acc (toksList l ++
          ((TokenType.AND, "&") :: (toksList r ++ ((TokenType.RPARENS, ")") :: rest)))) =
          .ok (.and l r, (TokenType.RPARENS, ")") :: rest) :=
        cond_stop (g + 4) t5 rfl
      have t7 : parseR .bic (g + 6) acc (toksList l ++
          ((TokenType.AND, "&") :: (toksList r ++ ((TokenType.RPARENS, ")") :: rest)))) =
          .ok (.and l r, (TokenType.RPARENS, ")") :: rest) :=
        bic_stop (g + 5) t6 rfl
      have t8 : parseR .unit (g + 7) acc ((TokenType.LPARENS, "(") :: (toksList l ++
          ((TokenType.AND, "&") :: (toksList r ++ ((TokenType.RPARENS, ")") :: rest))))) =
          .ok (.and l r, rest) :=
        unit_parens (g + 6) "(" ")" t7
      have t9 : parseR .neg (g + 8) acc ((TokenType.LPARENS, "(") :: (toksList l ++
          ((TokenType.AND, "&") :: (toksList r ++ ((TokenType.RPARENS, ")") :: rest))))) =
          .ok (.and l r, rest) :=
        neg_unit (g + 7) rfl t8
      simpa only [toksList, List.cons_append, List.append_assoc,
        List.singleton_append] using t9
  | or l r ihl ihr =>
      intro acc rest fuel hf
      have hsl := size_pos l
      have hsr := size_pos r
      simp only [size] at hf
      obtain ⟨g, rfl⟩ : ∃ g, fuel = g + 8 := ⟨fuel - 8, by omega⟩
      have hl : parseR .neg (g + 2) acc (toksList l ++
          ((TokenType.OR, "|") :: (toksList r ++ ((TokenType.RPARENS, ")") :: rest)))) =
          .ok (l, (TokenType.OR, "|") :: (toksList r ++ ((TokenType.RPARENS, ")") :: rest))) :=
        ihl acc _ (g + 2) (by omega)
      have hr : parseR .neg (g + 1) l (toksList r ++ ((TokenType.RPARENS, ")") :: rest)) =
          .ok (r, (TokenType.RPARENS, ")") :: rest) :=
        ihr l _ (g + 1) (by omega)
      have t1 : parseR .conjTail (g + 2) l
          ((TokenType.OR, "|") :: (toksList r ++ ((TokenType.RPARENS, ")") :: rest))) =
          .ok (l, (TokenType.OR, "|") :: (toksList r ++ ((TokenType.RPARENS, ")") :: rest))) :=
        conjTail_stop (g + 1) _ _ rfl
      have t2 : parseR .conj (g + 3) acc (toksList l ++
          ((TokenType.OR, "|") :: (toksList r ++ ((TokenType.RPARENS, ")") :: rest)))) =
          .ok (l, (TokenType.OR, "|") :: (toksList r ++ ((TokenType.RPARENS, ")") :: rest))) :=
        conj_def (g + 2) hl t1
      have t3 : parseR .conjTail (g + 1) r ((TokenType.RPARENS, ")") :: rest) =
          .ok (r, (TokenType.RPARENS, ")") :: rest) :=
        conjTail_stop g _ _ rfl
      have t4 : parseR .conj (g + 2) l (toksList r ++ ((TokenType.RPARENS, ")") :: rest)) =
          .ok (r, (TokenType.RPARENS, ")") :: rest) :=
        conj_def (g + 1) hr t3
      have t5 : parseR .disjTail (g + 2) (Proposition.or l r)
          ((TokenType.RPARENS, ")") :: rest) = .ok (.or l r, (TokenType.RPARENS, ")") :: rest) :=
        disjTail_stop (g + 1) _ _ rfl
      have t6 : parseR .disjTail (g + 3) l
          ((TokenType.OR, "|") :: (toksList r ++ ((TokenType.RPARENS, ")") :: rest))) =
          .ok (.or l r, (TokenType.RPARENS, ")") :: rest) :=
        disjTail_or (g + 2) "|" t4 t5
      have t7 : parseR .disj (g + 4) acc (toksList l ++
          ((TokenType.OR, "|") :: (toksList r ++ ((TokenType.RPARENS, ")") :: rest)))) =
          .ok (.or l r, (TokenType.RPARENS, ")") :: rest) :=
        disj_def (g + 3) t2 t6
      have t8 : parseR .cond (g + 5) acc (toksList l ++
          ((TokenType.OR, "|") :: (toksList r ++ ((TokenType.RPARENS, ")") :: rest)))) =
          .ok (.or l r, (TokenType.RPARENS, ")") :: rest) :=
        cond_stop (g + 4) t7 rfl
      have t9 : parseR .bic (g + 6) acc (toksList l ++
          ((TokenType.OR, "|") :: (toksList r ++ ((TokenType.RPARENS, ")") :: rest)))) =
          .ok (.or l r, (TokenType.RPARENS, ")") :: rest) :=
        bic_stop (g + 5) t8 rfl
      have t10 : parseR .unit (g + 7) acc ((TokenType.LPARENS, "(") :: (toksList l ++
          ((TokenType.OR, "|") :: (toksList r ++ ((TokenType.RPARENS, ")") :: rest))))) =
          .ok (.or l r, rest) :=
        unit_parens (g + 6) "(" ")" t9
      have t11 : parseR .neg (g + 8) acc ((TokenType.LPARENS, "(") :: (toksList l ++
          ((TokenType.OR, "|") :: (toksList r ++ ((TokenType.RPARENS, ")") :: rest))))) =
          .ok (.or l r, rest) :=
        neg_unit (g + 7) rfl t10
      simpa only [toksList, List.cons_append, List.append_assoc,
        List.singleton_append] using t11
  | implies l r ihl ihr =>
      intro acc rest fuel hf
      have hsl := size_pos l
      have hsr := size_pos r
      simp only [size] at hf
      obtain ⟨g, rfl⟩ : ∃ g, fuel = g + 8 := ⟨fuel - 8, by omega⟩
      have hl : parseR .neg (g + 2) acc (toksList l ++
          ((TokenType.IMPLIES, "->") :: (toksList r ++ ((TokenType.RPARENS, ")") :: rest)))) =
          .ok (l, (TokenType.IMPLIES, "->") :: (toksList r ++ ((TokenType.RPARENS, ")") :: rest))) :=
        ihl acc _ (g + 2) (by omega)
      have hr : parseR .neg (g + 1) acc (toksList r ++ ((TokenType.RPARENS, ")") :: rest)) =
          .ok (r, (TokenType.RPARENS, ")") :: rest) :=
        ihr acc _ (g + 1) (by omega)
      have t1 : parseR .conjTail (g + 2) l
          ((TokenType.IMPLIES, "->") :: (toksList r ++ ((TokenType.RPARENS, ")") :: rest))) =
          .ok (l, (TokenType.IMPLIES, "->") :: (toksList r ++ ((TokenType.RPARENS, ")") :: rest))) :=
        conjTail_stop (g + 1) _ _ rfl
      have t2 : parseR .conj (g + 3) acc (toksList l ++
          ((TokenType.IMPLIES, "->") :: (toksList r ++ ((TokenType.RPARENS, ")") :: rest)))) =
          .ok (l, (TokenType.IMPLIES, "->") :: (toksList r ++ ((TokenType.RPARENS, ")") :: rest))) :=
        conj_def (g + 2) hl t1
      have t3 : parseR .disjTail (g + 3) l
          ((TokenType.IMPLIES, "->") :: (toksList r ++ ((TokenType.RPARENS, ")") :: rest))) =
          .ok (l, (TokenType.IMPLIES, "->") :: (toksList r ++ ((TokenType.RPARENS, ")") :: rest))) :=
        disjTail_stop (g + 2) _ _ rfl
      have t4 : parseR .disj (g + 4) acc (toksList l ++
          ((TokenType.IMPLIES, "->") :: (toksList r ++ ((TokenType.RPARENS, ")") :: rest)))) =
          .ok (l, (TokenType.IMPLIES, "->") :: (toksList r ++ ((TokenType.RPARENS, ")") :: rest))) :=
        disj_def (g + 3) t2 t3
      -- the right operand through the full cond chain
      have u1 : parseR .conjTail (g + 1) r ((TokenType.RPARENS, ")") :: rest) =
          .ok (r, (TokenType.RPARENS, ")") :: rest) :=
        conjTail_stop g _ _ rfl
      have u2 : parseR .conj (g + 2) acc (toksList r ++ ((TokenType.RPARENS, ")") :: rest)) =
          .ok (r, (TokenType.RPARENS, ")") :: rest) :=
        conj_def (g + 1) hr u1
      have u3 : parseR .disjTail (g + 2) r ((TokenType.RPARENS, ")") :: rest) =
          .ok (r, (TokenType.RPARENS, ")") :: rest) :=
        disjTail_stop (g + 1) _ _ rfl
      have u4 : parseR .disj (g + 3) acc (toksList r ++ ((TokenType.RPARENS, ")") :: rest)) =
          .ok (r, (TokenType.RPARENS, ")") :: rest) :=
        disj_def (g + 2) u2 u3
      have u5 : parseR .cond (g + 4) acc (toksList r ++ ((TokenType.RPARENS, ")") :: rest)) =
          .ok (r, (TokenType.RPARENS, ")") :: rest) :=
        cond_stop (g + 3) u4 rfl
      have t5 : parseR .cond (g + 5) acc (toksList l ++
          ((TokenType.IMPLIES, "->") :: (toksList r ++ ((TokenType.RPARENS, ")") :: rest)))) =
          .ok (.implies l r, (TokenType.RPARENS, ")") :: rest) :=
        cond_implies (g + 4) "->" t4 u5
      have t6 : parseR .bic (g + 6) acc (toksList l ++
          ((TokenType.IMPLIES, "->") :: (toksList r ++ ((TokenType.RPARENS, ")") :: rest)))) =
          .ok (.implies l r, (TokenType.RPARENS, ")") :: rest) :=
        bic_stop (g + 5) t5 rfl
      have t7 : parseR .unit (g + 7) acc ((TokenType.LPARENS, "(") :: (toksList l ++
          ((TokenType.IMPLIES, "->") :: (toksList r ++ ((TokenType.RPARENS, ")") :: rest))))) =
          .ok (.implies l r, rest) :=
        unit_parens (g + 6) "(" ")" t6
      have t8 : parseR .neg (g + 8) acc ((TokenType.LPARENS, "(") :: (toksList l ++
          ((TokenType.IMPLIES, "->") :: (toksList r ++ ((TokenType.RPARENS, ")") :: rest))))) =
          .ok (.implies l r, rest) :=
        neg_unit (g + 7) rfl t7
      simpa only [toksList, List.cons_append, List.append_assoc,
        List.singleton_append] using t8
  | iff l r ihl ihr =>
      intro acc rest fuel hf
      have hsl := size_pos l
      have hsr := size_pos r
      simp only [size] at hf
      obtain ⟨g, rfl⟩ : ∃ g, fuel = g + 8 := ⟨fuel - 8, by omega⟩
      have hl : parseR .neg (g + 2) acc (toksList l ++
          ((TokenType.IFF, "<->") :: (toksList r ++ ((TokenType.RPARENS, ")") :: rest)))) =
          .ok (l, (TokenType.IFF, "<->") :: (toksList r ++ ((TokenType.RPARENS, ")") :: rest))) :=
        ihl acc _ (g + 2) (by omega)
      have hr : parseR .neg (g + 1) acc (toksList r ++ ((TokenType.RPARENS, ")") :: rest)) =
          .ok (r, (TokenType.RPARENS, ")") :: rest) :=
        ihr acc _ (g + 1) (by omega)
      have t1 : parseR .conjTail (g + 2) l
          ((TokenType.IFF, "<->") :: (toksList r ++ ((TokenType.RPARENS, ")") :: rest))) =
          .ok (l, (TokenType.IFF, "<->") :: (toksList r ++ ((TokenType.RPARENS, ")") :: rest))) :=
        conjTail_stop (g + 1) _ _ rfl
      have t2 : parseR .conj (g + 3) acc (toksList l ++
          ((TokenType.IFF, "<->") :: (toksList r ++ ((TokenType.RPARENS, ")") :: rest)))) =
          .ok (l, (TokenType.IFF, "<->") :: (toksList r ++ ((TokenType.RPARENS, ")") :: rest))) :=
        conj_def (g + 2) hl t1
      have t3 : parseR .disjTail (g + 3) l
          ((TokenType.IFF, "<->") :: (toksList r ++ ((TokenType.RPARENS, ")") :: rest))) =
          .ok (l, (TokenType.IFF, "<->") :: (toksList r ++ ((TokenType.RPARENS, ")") :: rest))) :=
        disjTail_stop (g + 2) _ _ rfl
      have t4 : parseR .disj (g + 4) acc (toksList l ++
          ((TokenType.IFF, "<->") :: (toksList r ++ ((TokenType.RPARENS, ")") :: rest)))) =
          .ok (l, (TokenType.IFF, "<->") :: (toksList r ++ ((TokenType.RPARENS, ")") :: rest))) :=
        disj_def (g + 3) t2 t3
      have t5 : parseR .cond (g + 5) acc (toksList l ++
          ((TokenType.IFF, "<->") :: (toksList r ++ ((TokenType.RPARENS, ")") :: rest)))) =
          .ok (l, (TokenType.IFF, "<->") :: (toksList r ++ ((TokenType.RPARENS, ")") :: rest))) :=
        cond_stop (g + 4) t4 rfl
      -- the right operand through the full bic chain
      have u1 : parseR .conjTail (g + 1) r ((TokenType.RPARENS, ")") :: rest) =
          .ok (r, (TokenType.RPARENS, ")") :: rest) :=
        conjTail_stop g _ _ rfl
      have u2 : parseR .conj (g + 2) acc (toksList r ++ ((TokenType.RPARENS, ")") :: rest)) =
          .ok (r, (TokenType.RPARENS, ")") :: rest) :=
        conj_def (g + 1) hr u1
      have u3 : parseR .disjTail (g + 2) r ((TokenType.RPARENS, ")") :: rest) =
          .ok (r, (TokenType.RPARENS, ")") :: rest) :=
        disjTail_stop (g + 1) _ _ rfl
      have u4 : parseR .disj (g + 3) acc (toksList r ++ ((TokenType.RPARENS, ")") :: rest)) =
          .ok (r, (TokenType.RPARENS, ")") :: rest) :=
        disj_def (g + 2) u2 u3
      have u5 : parseR .cond (g + 4) acc (toksList r ++ ((TokenType.RPARENS, ")") :: rest)) =
          .ok (r, (TokenType.RPARENS, ")") :: rest) :=
        cond_stop (g + 3) u4 rfl
      have u6 : parseR .bic (g + 5) acc (toksList r ++ ((TokenType.RPARENS, ")") :: rest)) =
          .ok (r, (TokenType.RPARENS, ")") :: rest) :=
        bic_stop (g + 4) u5 rfl
      have t6 : parseR .bic (g + 6) acc (toksList l ++
          ((TokenType.IFF, "<->") :: (toksList r ++ ((TokenType.RPARENS, ")") :: rest)))) =
          .ok (.iff l r, (TokenType.RPARENS, ")") :: rest) :=
        bic_iff (g + 5) "<->" t5 u6
      have t7 : parseR .unit (g + 7) acc ((TokenType.LPARENS, "(") :: (toksList l ++
          ((TokenType.IFF, "<->") :: (toksList r ++ ((TokenType.RPARENS, ")") :: rest))))) =
          .ok (.iff l r, rest) :=
        unit_parens (g + 6) "(" ")" t6
      have t8 : parseR .neg (g + 8) acc ((TokenType.LPARENS, "(") :: (toksList l ++
          ((TokenType.IFF, "<->") :: (toksList r ++ ((TokenType.RPARENS, ")") :: rest))))) =
          .ok (.iff l r, rest) :=
        neg_unit (g + 7) rfl t7
      simpa only [toksList, List.cons_append, List.append_assoc,
        List.singleton_append] using t8

theorem size_le_toksList_length (t : Proposition) :
    size t ≤ (toksList t).length := by
  induction t <;> simp [toksList, size] <;> omega

theorem toksList_ne_nil (t : Proposition) : toksList t ≠ [] := by
  cases t <;> simp [toksList]

/-- Parsing the token stream of a formal rendering at the top (`bic`) level
consumes exactly those tokens when the remainder cannot continue any
binary-operator loop. -/
theorem bic_toksList (t : Proposition) (acc : Proposition) (rest : List Token)
    (fuel : Nat) (hf : 10 * size t + 5 ≤ fuel) (hstop : stopTok rest = true) :
    parseR .bic fuel acc (toksList t ++ rest) = .ok (t, rest) := by
  obtain ⟨hA, hO, hI, hF⟩ := stopTok_spec hstop
  obtain ⟨g, rfl⟩ : ∃ g, fuel = g + 5 := ⟨fuel - 5, by omega⟩
  have hneg : parseR .neg (g + 1) acc (toksList t ++ rest) = .ok (t, rest) :=
    neg_toksList t acc rest (g + 1) (by omega)
  have h1 : parseR .conjTail (g + 1) t rest = .ok (t, rest) :=
    conjTail_stop g _ _ hA
  have h2 : parseR .conj (g + 2) acc (toksList t ++ rest) = .ok (t, rest) :=
    conj_def (g + 1) hneg h1
  have h3 : parseR .disjTail (g + 2) t rest = .ok (t, rest) :=
    disjTail_stop (g + 1) _ _ hO
  have h4 : parseR .disj (g + 3) acc (toksList t ++ rest) = .ok (t, rest) :=
    disj_def (g + 2) h2 h3
  have h5 : parseR .cond (g + 4) acc (toksList t ++ rest) = .ok (t, rest) :=
    cond_stop (g + 3) h4 hI
  exact bic_stop (g + 4) h5 hF

theorem validIdent_spec {s : String} (h : validIdent s = true) :
    ∃ c xs, s.data = c :: xs ∧ identStart c = true ∧
      ∀ d ∈ xs, identCont d = true := by
  cases hs : s.data with
  | nil =>
      simp only [validIdent, identFullmatch, hs] at h
      cases h
  | cons c xs =>
      simp only [validIdent, identFullmatch, hs, Bool.and_eq_true,
        List.all_eq_true] at h
      exact ⟨c, xs, rfl, h.1, h.2⟩

/-- Lexing a formal rendering followed by any continuation (not opening
with an identifier character) yields the rendering's tokens followed by
the continuation's tokens. -/
theorem lex_render : ∀ (t : Proposition) (cs : List Char) (ts : List Token),
    wfProp t = true → headNotCont cs = true → _lex cs = .ok ts →
    _lex (renderChars t ++ cs) = .ok (toksList t ++ ts) := by
  intro t
  induction t with
  | atomic n =>
      intro cs ts hwf hcs h
      obtain ⟨c, xs, hdata, hstart, hcont⟩ :=
        validIdent_spec (by simpa [wfProp] using hwf)
      have hn : String.mk (c :: xs) = n := by rw [← hdata]
      have key := lex_ident hstart hcont hcs h
      rw [hn] at key
      simpa only [renderChars, toksList, hdata, List.singleton_append] using key
  | not p ih =>
      intro cs ts hwf hcs h
      have h1 := ih cs ts (by simpa [wfProp] using hwf) hcs h
      simpa only [renderChars, toksList, List.cons_append] using lex_tilde h1
  | and l r ihl ihr =>
      intro cs ts hwf hcs h
      have hwl : wfProp l = true := by
        simp [wfProp, Bool.and_eq_true] at hwf; exact hwf.1
      have hwr : wfProp r = true := by
        simp [wfProp, Bool.and_eq_true] at hwf; exact hwf.2
      have s1 : _lex (')' :: cs) = .ok ((TokenType.RPARENS, ")") :: ts) :=
        lex_rparen h
      have s2 : _lex (renderChars r ++ (')' :: cs)) =
          .ok (toksList r ++ ((TokenType.RPARENS, ")") :: ts)) :=
        ihr _ _ hwr rfl s1
      have s3 : _lex (' ' :: (renderChars r ++ (')' :: cs))) =
          .ok (toksList r ++ ((TokenType.RPARENS, ")") :: ts)) :=
        lex_ws (by decide) s2
      have s4 : _lex ('&' :: ' ' :: (renderChars r ++ (')' :: cs))) =
          .ok ((TokenType.AND, "&") :: (toksList r ++ ((TokenType.RPARENS, ")") :: ts))) :=
        lex_amp s3
      have s5 : _lex (' ' :: '&' :: ' ' :: (renderChars r ++ (')' :: cs))) =
          .ok ((TokenType.AND, "&") :: (toksList r ++ ((TokenType.RPARENS, ")") :: ts))) :=
        lex_ws (by decide) s4
      have s6 : _lex (renderChars l ++ (' ' :: '&' :: ' ' :: (renderChars r ++ (')' :: cs)))) =
          .ok (toksList l ++ ((TokenType.AND, "&") ::
            (toksList r ++ ((TokenType.RPARENS, ")") :: ts)))) :=
        ihl _ _ hwl rfl s5
      have s7 := lex_lparen s6
      simpa only [renderChars, toksList, List.cons_append, List.append_assoc,
        List.singleton_append] using s7
  | or l r ihl ihr =>
      intro cs ts hwf hcs h
      have hwl : wfProp l = true := by
        simp [wfProp, Bool.and_eq_true] at hwf; exact hwf.1
      have hwr : wfProp r = true := by
        simp [wfProp, Bool.and_eq_true] at hwf; exact hwf.2
      have s1 : _lex (')' :: cs) = .ok ((TokenType.RPARENS, ")") :: ts) :=
        lex_rparen h
      have s2 : _lex (renderChars r ++ (')' :: cs)) =
          .ok (toksList r ++ ((TokenType.RPARENS, ")") :: ts)) :=
        ihr _ _ hwr rfl s1
      have s3 : _lex (' ' :: (renderChars r ++ (')' :: cs))) =
          .ok (toksList r ++ ((TokenType.RPARENS, ")") :: ts)) :=
        lex_ws (by decide) s2
      have s4 : _lex ('|' :: ' ' :: (renderChars r ++ (')' :: cs))) =
          .ok ((TokenType.OR, "|") :: (toksList r ++ ((TokenType.RPARENS, ")") :: ts))) :=
        lex_bar s3
      have s5 : _lex (' ' :: '|' :: ' ' :: (renderChars r ++ (')' :: cs))) =
          .ok ((TokenType.OR, "|") :: (toksList r ++ ((TokenType.RPARENS, ")") :: ts))) :=
        lex_ws (by decide) s4
      have s6 : _lex (renderChars l ++ (' ' :: '|' :: ' ' :: (renderChars r ++ (')' :: cs)))) =
          .ok (toksList l ++ ((TokenType.OR, "|") ::
            (toksList r ++ ((TokenType.RPARENS, ")") :: ts)))) :=
        ihl _ _ hwl rfl s5
      have s7 := lex_lparen s6
      simpa only [renderChars, toksList, List.cons_append, List.append_assoc,
        List.singleton_append] using s7
  | implies l r ihl ihr =>
      intro cs ts hwf hcs h
      have hwl : wfProp l = true := by
        simp [wfProp, Bool.and_eq_true] at hwf; exact hwf.1
      have hwr : wfProp r = true := by
        simp [wfProp, Bool.and_eq_true] at hwf; exact hwf.2
      have s1 : _lex (')' :: cs) = .ok ((TokenType.RPARENS, ")") :: ts) :=
        lex_rparen h
      have s2 : _lex (renderChars r ++ (')' :: cs)) =
          .ok (toksList r ++ ((TokenType.RPARENS, ")") :: ts)) :=
        ihr _ _ hwr rfl s1
      have s3 : _lex (' ' :: (renderChars r ++ (')' :: cs))) =
          .ok (toksList r ++ ((TokenType.RPARENS, ")") :: ts)) :=
        lex_ws (by decide) s2
      have s4 : _lex ('-' :: '>' :: ' ' :: (renderChars r ++ (')' :: cs))) =
          .ok ((TokenType.IMPLIES, "->") :: (toksList r ++ ((TokenType.RPARENS, ")") :: ts))) :=
        lex_arrow s3
      have s5 : _lex (' ' :: '-' :: '>' :: ' ' :: (renderChars r ++ (')' :: cs))) =
          .ok ((TokenType.IMPLIES, "->") :: (toksList r ++ ((TokenType.RPARENS, ")") :: ts))) :=
        lex_ws (by decide) s4
      have s6 : _lex (renderChars l ++
          (' ' :: '-' :: '>' :: ' ' :: (renderChars r ++ (')' :: cs)))) =
          .ok (toksList l ++ ((TokenType.IMPLIES, "->") ::
            (toksList r ++ ((TokenType.RPARENS, ")") :: ts)))) :=
        ihl _ _ hwl rfl s5
      have s7 := lex_lparen s6
      simpa only [renderChars, toksList, List.cons_append, List.append_assoc,
        List.singleton_append] using s7
  | iff l r ihl ihr =>
      intro cs ts hwf hcs h
      have hwl : wfProp l = true := by
        simp [wfProp, Bool.and_eq_true] at hwf; exact hwf.1
      have hwr : wfProp r = true := by
        simp [wfProp, Bool.and_eq_true] at hwf; exact hwf.2
      have s1 : _lex (')' :: cs) = .ok ((TokenType.RPARENS, ")") :: ts) :=
        lex_rparen h
      have s2 : _lex (renderChars r ++ (')' :: cs)) =
          .ok (toksList r ++ ((TokenType.RPARENS, ")") :: ts)) :=
        ihr _ _ hwr rfl s1
      have s3 : _lex (' ' :: (renderChars r ++ (')' :: cs))) =
          .ok (toksList r ++ ((TokenType.RPARENS, ")") :: ts)) :=
        lex_ws (by decide) s2
      have s4 : _lex ('<' :: '-' :: '>' :: ' ' :: (renderChars r ++ (')' :: cs))) =
          .ok ((TokenType.IFF, "<->") :: (toksList r ++ ((TokenType.RPARENS, ")") :: ts))) :=
        lex_darrow s3
      have s5 : _lex (' ' :: '<' :: '-' :: '>' :: ' ' :: (renderChars r ++ (')' :: cs))) =
          .ok ((TokenType.IFF, "<->") :: (toksList r ++ ((TokenType.RPARENS, ")") :: ts))) :=
        lex_ws (by decide) s4
      have s6 : _lex (renderChars l ++
          (' ' :: '<' :: '-' :: '>' :: ' ' :: (renderChars r ++ (')' :: cs)))) =
          .ok (toksList l ++ ((TokenType.IFF, "<->") ::
            (toksList r ++ ((TokenType.RPARENS, ")") :: ts)))) :=
        ihl _ _ hwl rfl s5
      have s7 := lex_lparen s6
      simpa only [renderChars, toksList, List.cons_append, List.append_assoc,
        List.singleton_append] using s7

/-- `prop` on any character list lexing to a rendering's tokens followed by
loop-stopping leftovers returns the rendered proposition (leftovers are
dropped, not rejected). -/
theorem prop_of_toks {t : Proposition} {cs : List Char} {rest : List Token}
    (hlex : _lex cs = .ok (toksList t ++ rest)) (hstop : stopTok rest = true) :
    prop (String.mk cs) = .ok t := by
  unfold prop
  rw [show (String.mk cs).data = cs from rfl, hlex]
  obtain ⟨tk, tks, htk⟩ : ∃ a b, toksList t ++ rest = a :: b := by
    cases ht : toksList t ++ rest with
    | nil =>
        rw [List.append_eq_nil] at ht
        exact absurd ht.1 (toksList_ne_nil t)
    | cons a b => exact ⟨a, b, rfl⟩
  rw [htk]
  dsimp only
  have hparse : parseR .bic (10 * (tk :: tks).length + 10) noAcc (tk :: tks) =
      .ok (t, rest) := by
    rw [← htk]
    refine bic_toksList t noAcc rest _ ?_ hstop
    have h1 := size_le_toksList_length t
    simp only [List.length_append]
    omega
  rw [hparse]

/-- C2: round-trip law for the formal rendering — for every well-formed
proposition `t`, `prop (str t) = t`. -/
theorem formal_round_trip (t : Proposition) (h : wfProp t = true) :
    prop (render t) = .ok t := by
  have hlex : _lex (renderChars t) = .ok (toksList t ++ []) := by
    simpa using lex_render t [] [] h rfl lex_nil
  exact prop_of_toks hlex rfl

/-- C2 witness: the concrete round trip of `(P <-> (Q & ~R))`. -/
theorem formal_round_trip_witness :
    wfProp (.iff (.atomic "P") (.and (.atomic "Q") (.not (.atomic "R")))) = true ∧
    prop (render (.iff (.atomic "P") (.and (.atomic "Q") (.not (.atomic "R"))))) =
      .ok (.iff (.atomic "P") (.and (.atomic "Q") (.not (.atomic "R")))) :=
  ⟨by decide, formal_round_trip _ (by decide)⟩

/-- C3 (amended): `prop` performs no exhaustion check — parsing a complete
formula followed by a trailing token succeeds and returns the formula
parsed from the leading tokens, silently dropping the remainder. -/
theorem prop_ignores_trailing_tokens (t : Proposition) (h : wfProp t = true) :
    prop (String.mk (renderChars t ++ (' ' :: ['Z']))) = .ok t := by
  have hz : _lex (' ' :: ['Z']) = .ok [(TokenType.ATOMIC, "Z")] := rfl
  have hlex : _lex (renderChars t ++ (' ' :: ['Z'])) =
      .ok (toksList t ++ [(TokenType.ATOMIC, "Z")]) :=
    lex_render t _ _ h (by decide) hz
  exact prop_of_toks hlex rfl

/-- C3 witness: `(P & Q)` followed by a trailing atom parses to `And(P, Q)`
without error. -/
theorem prop_ignores_trailing_tokens_witness :
    wfProp (.and (.atomic "P") (.atomic "Q")) = true ∧
    prop (String.mk (renderChars (.and (.atomic "P") (.atomic "Q")) ++ (' ' :: ['Z']))) =
      .ok (.and (.atomic "P") (.atomic "Q")) :=
  ⟨by decide, prop_ignores_trailing_tokens _ (by decide)⟩


theorem tailToks_length (st : Token) (ns : List String) :
    (tailToks st ns).length = 2 * ns.length := by
  induction ns with
  | nil => rfl
  | cons m ms ih => simp [tailToks, ih]; omega

/-- Lexing an operator chain `n₀ op n₁ op …` yields the first atom's token
followed by alternating operator and atom tokens. -/
theorem lex_chain (sep : List Char) (st : Token)
    (hsep : ∀ cs ts, _lex cs = .ok ts → _lex (sep ++ cs) = .ok (st :: ts))
    (hhead : ∀ cs2 : List Char, headNotCont (sep ++ cs2) = true) :
    ∀ (ns : List String) (n : String), validIdent n = true →
      (∀ m ∈ ns, validIdent m = true) →
      _lex (chainChars sep n ns) =
        .ok ((TokenType.ATOMIC, n) :: tailToks st ns) := by
  intro ns
  induction ns with
  | nil =>
      intro n hn _
      obtain ⟨c, xs, hdata, hstart, hcont⟩ := validIdent_spec hn
      have hnm : String.mk (c :: xs) = n := by rw [← hdata]
      have key := lex_ident hstart hcont (show headNotCont [] = true from rfl) lex_nil
      rw [hnm] at key
      simpa only [chainChars, tailToks, hdata, List.append_nil] using key
  | cons m ms ih =>
      intro n hn hms
      have hm : validIdent m = true := hms m (by simp)
      have hms' : ∀ x ∈ ms, validIdent x = true :=
        fun x hx => hms x (by simp [hx])
      have hchain := ih m hm hms'
      have hstep := hsep _ _ hchain
      obtain ⟨c, xs, hdata, hstart, hcont⟩ := validIdent_spec hn
      have hnm : String.mk (c :: xs) = n := by rw [← hdata]
      have key := lex_ident hstart hcont (hhead (chainChars sep m ms)) hstep
      rw [hnm] at key
      simpa only [chainChars, tailToks, hdata, List.append_assoc] using key

/-- Folding the `conj` while-loop over an `&`-separated chain builds a
left-nested tree. -/
theorem conjTail_chain : ∀ (ms : List String) (acc : Proposition)
    (rest : List Token) (fuel : Nat), 3 * ms.length + 1 ≤ fuel →
    headIsNot .AND rest = true →
    parseR .conjTail fuel acc (tailToks (sepTok .AND) ms ++ rest) =
      .ok (List.foldl (fun a m => .and a (.atomic m)) acc ms, rest) := by
  intro ms
  induction ms with
  | nil =>
      intro acc rest fuel hf hrest
      obtain ⟨g, rfl⟩ : ∃ g, fuel = g + 1 := ⟨fuel - 1, by omega⟩
      simpa only [tailToks, List.nil_append, List.foldl_nil] using
        conjTail_stop g acc rest hrest
  | cons m ms ih =>
      intro acc rest fuel hf hrest
      obtain ⟨g, rfl⟩ : ∃ g, fuel = g + 3 := ⟨fuel - 3, by simp at hf; omega⟩
      have hneg : parseR .neg (g + 2) acc
          ((TokenType.ATOMIC, m) :: (tailToks (sepTok .AND) ms ++ rest)) =
          .ok (.atomic m, tailToks (sepTok .AND) ms ++ rest) :=
        neg_unit (g + 1) rfl (unit_atomic g acc m _)
      have htail : parseR .conjTail (g + 2) (.and acc (.atomic m))
          (tailToks (sepTok .AND) ms ++ rest) =
          .ok (List.foldl (fun a x => .and a (.atomic x))
            (.and acc (.atomic m)) ms, rest) :=
        ih _ rest (g + 2) (by simp at hf ⊢; omega) hrest
      have key := conjTail_and (g + 2) "&" hneg htail
      simpa only [tailToks, sepTok, List.cons_append, List.foldl_cons] using key

theorem tailToks_or_head_not_and (ms : List String) (rest : List Token)
    (hrest : stopTok rest = true) :
    headIsNot .AND (tailToks (sepTok .OR) ms ++ rest) = true := by
  cases ms with
  | nil => exact (stopTok_spec hrest).1
  | cons m ms => rfl

/-- Folding the `disj` while-loop over a `|`-separated chain builds a
left-nested tree. -/
theorem disjTail_chain : ∀ (ms : List String) (acc : Proposition)
    (rest : List Token) (fuel : Nat), 5 * ms.length + 1 ≤ fuel →
    stopTok rest = true →
    parseR .disjTail fuel acc (tailToks (sepTok .OR) ms ++ rest) =
      .ok (List.foldl (fun a m => .or a (.atomic m)) acc ms, rest) := by
  intro ms
  induction ms with
  | nil =>
      intro acc rest fuel hf hrest
      obtain ⟨g, rfl⟩ : ∃ g, fuel = g + 1 := ⟨fuel - 1, by omega⟩
      simpa only [tailToks, List.nil_append, List.foldl_nil] using
        disjTail_stop g acc rest (stopTok_spec hrest).2.1
  | cons m ms ih =>
      intro acc rest fuel hf hrest
      obtain ⟨g, rfl⟩ : ∃ g, fuel = g + 4 := ⟨fuel - 4, by simp at hf; omega⟩
      have hneg : parseR .neg (g + 2) acc
          ((TokenType.ATOMIC, m) :: (tailToks (sepTok .OR) ms ++ rest)) =
          .ok (.atomic m, tailToks (sepTok .OR) ms ++ rest) :=
        neg_unit (g + 1) rfl (unit_atomic g acc m _)
      have hct : parseR .conjTail (g + 2) (.atomic m)
          (tailToks (sepTok .OR) ms ++ rest) =
          .ok (.atomic m, tailToks (sepTok .OR) ms ++ rest) :=
        conjTail_stop (g + 1) _ _ (tailToks_or_head_not_and ms rest hrest)
      have hconj : parseR .conj (g + 3) acc
          ((TokenType.ATOMIC, m) :: (tailToks (sepTok .OR) ms ++ rest)) =
          .ok (.atomic m, tailToks (sepTok .OR) ms ++ rest) :=
        conj_def (g + 2) hneg hct
      have htail : parseR .disjTail (g + 3) (.or acc (.atomic m))
          (tailToks (sepTok .OR) ms ++ rest) =
          .ok (List.foldl (fun a x => .or a (.atomic x))
            (.or acc (.atomic m)) ms, rest) :=
        ih _ rest (g + 3) (by simp at hf ⊢; omega) hrest
      have key := disjTail_or (g + 3) "|" hconj htail
      simpa only [tailToks, sepTok, List.cons_append, List.foldl_cons] using key

/-- Right recursion of `cond` over a `->`-separated chain builds a
right-nested tree. -/
theorem cond_chain : ∀ (ms : List String) (n : String) (acc : Proposition)
    (rest : List Token) (fuel : Nat), 5 * ms.length + 6 ≤ fuel →
    stopTok rest = true →
    parseR .cond fuel acc
      ((TokenType.ATOMIC, n) :: (tailToks (sepTok .IMPLIES) ms ++ rest)) =
      .ok (rightNest .implies n ms, rest) := by
  intro ms
  induction ms with
  | nil =>
      intro n acc rest fuel hf hrest
      obtain ⟨g, rfl⟩ : ∃ g, fuel = g + 5 := ⟨fuel - 5, by omega⟩
      have hneg : parseR .neg (g + 2) acc ((TokenType.ATOMIC, n) :: rest) =
          .ok (.atomic n, rest) :=
        neg_unit (g + 1) rfl (unit_atomic g acc n rest)
      have hct : parseR .conjTail (g + 2) (.atomic n) rest =
          .ok (.atomic n, rest) :=
        conjTail_stop (g + 1) _ _ (stopTok_spec hrest).1
      have hconj := conj_def (g + 2) hneg hct
      have hdt : parseR .disjTail (g + 3) (.atomic n) rest =
          .ok (.atomic n, rest) :=
        disjTail_stop (g + 2) _ _ (stopTok_spec hrest).2.1
      have hdisj := disj_def (g + 3) hconj hdt
      have hcond := cond_stop (g + 4) hdisj (stopTok_spec hrest).2.2.1
      simpa only [tailToks, List.nil_append, rightNest] using hcond
  | cons m ms ih =>
      intro n acc rest fuel hf hrest
      obtain ⟨g, rfl⟩ : ∃ g, fuel = g + 5 := ⟨fuel - 5, by simp at hf; omega⟩
      have hneg : parseR .neg (g + 2) acc ((TokenType.ATOMIC, n) ::
          ((TokenType.IMPLIES, "->") ::
            ((TokenType.ATOMIC, m) :: (tailToks (sepTok .IMPLIES) ms ++ rest)))) =
          .ok (.atomic n, (TokenType.IMPLIES, "->") ::
            ((TokenType.ATOMIC, m) :: (tailToks (sepTok .IMPLIES) ms ++ rest))) :=
        neg_unit (g + 1) rfl (unit_atomic g acc n _)
      have hct := conjTail_stop (g + 1) (Proposition.atomic n)
        ((TokenType.IMPLIES, "->") ::
          ((TokenType.ATOMIC, m) :: (tailToks (sepTok .IMPLIES) ms ++ rest))) rfl
      have hconj := conj_def (g + 2) hneg hct
      have hdt := disjTail_stop (g + 2) (Proposition.atomic n)
        ((TokenType.IMPLIES, "->") ::
          ((TokenType.ATOMIC, m) :: (tailToks (sepTok .IMPLIES) ms ++ rest))) rfl
      have hdisj := disj_def (g + 3) hconj hdt
      have hrec : parseR .cond (g + 4) acc ((TokenType.ATOMIC, m) ::
          (tailToks (sepTok .IMPLIES) ms ++ rest)) =
          .ok (rightNest .implies m ms, rest) :=
        ih m acc rest (g + 4) (by simp at hf ⊢; omega) hrest
      have key := cond_implies (g + 4) "->" hdisj hrec
      simpa only [tailToks, sepTok, List.cons_append, rightNest] using key

/-- Right recursion of `bic` over a `<->`-separated chain builds a
right-nested tree. -/
theorem bic_chain : ∀ (ms : List String) (n : String) (acc : Proposition)
    (rest : List Token) (fuel : Nat), 6 * ms.length + 7 ≤ fuel →
    stopTok rest = true →
    parseR .bic fuel acc
      ((TokenType.ATOMIC, n) :: (tailToks (sepTok .IFF) ms ++ rest)) =
      .ok (rightNest .iff n ms, rest) := by
  intro ms
  induction ms with
  | nil =>
      intro n acc rest fuel hf hrest
      obtain ⟨g, rfl⟩ : ∃ g, fuel = g + 6 := ⟨fuel - 6, by omega⟩
      have hneg : parseR .neg (g + 2) acc ((TokenType.ATOMIC, n) :: rest) =
          .ok (.atomic n, rest) :=
        neg_unit (g + 1) rfl (unit_atomic g acc n rest)
      have hct : parseR .conjTail (g + 2) (.atomic n) rest =
          .ok (.atomic n, rest) :=
        conjTail_stop (g + 1) _ _ (stopTok_spec hrest).1
      have hconj := conj_def (g + 2) hneg hct
      have hdt : parseR .disjTail (g + 3) (.atomic n) rest =
          .ok (.atomic n, rest) :=
        disjTail_stop (g + 2) _ _ (stopTok_spec hrest).2.1
      have hdisj := disj_def (g + 3) hconj hdt
      have hcond := cond_stop (g + 4) hdisj (stopTok_spec hrest).2.2.1
      have hbic := bic_stop (g + 5) hcond (stopTok_spec hrest).2.2.2
      simpa only [tailToks, List.nil_append, rightNest] using hbic
  | cons m ms ih =>
      intro n acc rest fuel hf hrest
      obtain ⟨g, rfl⟩ : ∃ g, fuel = g + 6 := ⟨fuel - 6, by simp at hf; omega⟩
      have hneg : parseR .neg (g + 2) acc ((TokenType.ATOMIC, n) ::
          ((TokenType.IFF, "<->") ::
            ((TokenType.ATOMIC, m) :: (tailToks (sepTok .IFF) ms ++ rest)))) =
          .ok (.atomic n, (TokenType.IFF, "<->") ::
            ((TokenType.ATOMIC, m) :: (tailToks (sepTok .IFF) ms ++ rest))) :=
        neg_unit (g + 1) rfl (unit_atomic g acc n _)
      have hct := conjTail_stop (g + 1) (Proposition.atomic n)
        ((TokenType.IFF, "<->") ::
          ((TokenType.ATOMIC, m) :: (tailToks (sepTok .IFF) ms ++ rest))) rfl
      have hconj := conj_def (g + 2) hneg hct
      have hdt := disjTail_stop (g + 2) (Proposition.atomic n)
        ((TokenType.IFF, "<->") ::
          ((TokenType.ATOMIC, m) :: (tailToks (sepTok .IFF) ms ++ rest))) rfl
      have hdisj := disj_def (g + 3) hconj hdt
      have hcond := cond_stop (g + 4) hdisj rfl
      have hrec : parseR .bic (g + 5) acc ((TokenType.ATOMIC, m) ::
          (tailToks (sepTok .IFF) ms ++ rest)) =
          .ok (rightNest .iff m ms, rest) :=
        ih m acc rest (g + 5) (by simp at hf ⊢; omega) hrest
      have key := bic_iff (g + 5) "<->" hcond hrec
      simpa only [tailToks, sepTok, List.cons_append, rightNest] using key

/-- `prop` through an explicit lexing result and `bic` parse. -/
theorem prop_of_bic {cs : List Char} {tk : Token} {tks leftover : List Token}
    {t : Proposition}
    (hlex : _lex cs = .ok (tk :: tks))
    (hbic : parseR .bic (10 * (tk :: tks).length + 10) noAcc (tk :: tks) =
      .ok (t, leftover)) :
    prop (String.mk cs) = .ok t := by
  unfold prop
  rw [show (String.mk cs).data = cs from rfl, hlex]
  dsimp only
  rw [hbic]


/-- C5: chains of same-precedence operators — `&` and `|` fold left
(`"P & Q & R"` parses to `And(And(P,Q),R)`), while `->` and `<->` fold
right (`"P -> Q -> R"` parses to `Implies(P, Implies(Q,R))`), for chains of
any length over valid atom names. -/
theorem parser_chain_associativity (n : String) (ns : List String)
    (h : validIdent n = true) (hns : ∀ m ∈ ns, validIdent m = true) :
    prop (chainStr (sepChars .AND) n ns) = .ok (leftNest .and n ns) ∧
    prop (chainStr (sepChars .OR) n ns) = .ok (leftNest .or n ns) ∧
    prop (chainStr (sepChars .IMPLIES) n ns) = .ok (rightNest .implies n ns) ∧
    prop (chainStr (sepChars .IFF) n ns) = .ok (rightNest .iff n ns) := by
  have hlen := tailToks_length
  refine ⟨?_, ?_, ?_, ?_⟩
  · -- & chain, left fold at the conj level
    have hlex := lex_chain (sepChars .AND) (sepTok .AND)
      (fun cs ts hcs => lex_ws rfl (lex_amp (lex_ws rfl hcs)))
      (fun cs2 => rfl) ns n h hns
    obtain ⟨g, hg⟩ : ∃ g, 10 * ((TokenType.ATOMIC, n) ::
        tailToks (sepTok .AND) ns).length + 10 = g + 6 :=
      ⟨10 * ((TokenType.ATOMIC, n) :: tailToks (sepTok .AND) ns).length + 4,
        by omega⟩
    have hglen : 20 * ns.length + 14 ≤ g + 6 := by
      have := hlen (sepTok .AND) ns
      simp [List.length_cons, this] at hg
      omega
    have hneg : parseR .neg (g + 2) noAcc
        ((TokenType.ATOMIC, n) :: tailToks (sepTok .AND) ns) =
        .ok (.atomic n, tailToks (sepTok .AND) ns) :=
      neg_unit (g + 1) rfl (unit_atomic g noAcc n _)
    have htail : parseR .conjTail (g + 2) (.atomic n)
        (tailToks (sepTok .AND) ns) =
        .ok (List.foldl (fun a m => .and a (.atomic m)) (.atomic n) ns, []) := by
      simpa using conjTail_chain ns (.atomic n) [] (g + 2) (by omega) rfl
    have hconj := conj_def (g + 2) hneg htail
    have hdt := disjTail_stop (g + 2)
      (List.foldl (fun a m => Proposition.and a (.atomic m)) (.atomic n) ns) [] rfl
    have hdisj := disj_def (g + 3) hconj hdt
    have hcond := cond_stop (g + 4) hdisj rfl
    have hbic := bic_stop (g + 5) hcond rfl
    exact prop_of_bic hlex (by rw [hg]; exact hbic)
  · -- | chain, left fold at the disj level
    have hlex := lex_chain (sepChars .OR) (sepTok .OR)
      (fun cs ts hcs => lex_ws rfl (lex_bar (lex_ws rfl hcs)))
      (fun cs2 => rfl) ns n h hns
    obtain ⟨g, hg⟩ : ∃ g, 10 * ((TokenType.ATOMIC, n) ::
        tailToks (sepTok .OR) ns).length + 10 = g + 6 :=
      ⟨10 * ((TokenType.ATOMIC, n) :: tailToks (sepTok .OR) ns).length + 4,
        by omega⟩
    have hglen : 20 * ns.length + 14 ≤ g + 6 := by
      have := hlen (sepTok .OR) ns
      simp [List.length_cons, this] at hg
      omega
    have hneg : parseR .neg (g + 2) noAcc
        ((TokenType.ATOMIC, n) :: tailToks (sepTok .OR) ns) =
        .ok (.atomic n, tailToks (sepTok .OR) ns) :=
      neg_unit (g + 1) rfl (unit_atomic g noAcc n _)
    have hct : parseR .conjTail (g + 2) (.atomic n)
        (tailToks (sepTok .OR) ns) = .ok (.atomic n, tailToks (sepTok .OR) ns) :=
      conjTail_stop (g + 1) _ _ (by cases ns <;> rfl)
    have hconj := conj_def (g + 2) hneg hct
    have hdt : parseR .disjTail (g + 3) (.atomic n)
        (tailToks (sepTok .OR) ns) =
        .ok (List.foldl (fun a m => .or a (.atomic m)) (.atomic n) ns, []) := by
      simpa using disjTail_chain ns (.atomic n) [] (g + 3) (by omega) rfl
    have hdisj := disj_def (g + 3) hconj hdt
    have hcond := cond_stop (g + 4) hdisj rfl
    have hbic := bic_stop (g + 5) hcond rfl
    exact prop_of_bic hlex (by rw [hg]; exact hbic)
  · -- -> chain, right recursion at the cond level
    have hlex := lex_chain (sepChars .IMPLIES) (sepTok .IMPLIES)
      (fun cs ts hcs => lex_ws rfl (lex_arrow (lex_ws rfl hcs)))
      (fun cs2 => rfl) ns n h hns
    obtain ⟨g, hg⟩ : ∃ g, 10 * ((TokenType.ATOMIC, n) ::
        tailToks (sepTok .IMPLIES) ns).length + 10 = g + 6 :=
      ⟨10 * ((TokenType.ATOMIC, n) :: tailToks (sepTok .IMPLIES) ns).length + 4,
        by omega⟩
    have hglen : 20 * ns.length + 14 ≤ g + 6 := by
      have := hlen (sepTok .IMPLIES) ns
      simp [List.length_cons, this] at hg
      omega
    have hcond : parseR .cond (g + 5) noAcc
        ((TokenType.ATOMIC, n) :: tailToks (sepTok .IMPLIES) ns) =
        .ok (rightNest .implies n ns, []) := by
      simpa using cond_chain ns n noAcc [] (g + 5) (by omega) rfl
    have hbic := bic_stop (g + 5) hcond rfl
    exact prop_of_bic hlex (by rw [hg]; exact hbic)
  · -- <-> chain, right recursion at the bic level
    have hlex := lex_chain (sepChars .IFF) (sepTok .IFF)
      (fun cs ts hcs => lex_ws rfl (lex_darrow (lex_ws rfl hcs)))
      (fun cs2 => rfl) ns n h hns
    obtain ⟨g, hg⟩ : ∃ g, 10 * ((TokenType.ATOMIC, n) ::
        tailToks (sepTok .IFF) ns).length + 10 = g + 6 :=
      ⟨10 * ((TokenType.ATOMIC, n) :: tailToks (sepTok .IFF) ns).length + 4,
        by omega⟩
    have hglen : 20 * ns.length + 14 ≤ g + 6 := by
      have := hlen (sepTok .IFF) ns
      simp [List.length_cons, this] at hg
      omega
    have hbic : parseR .bic (g + 6) noAcc
        ((TokenType.ATOMIC, n) :: tailToks (sepTok .IFF) ns) =
        .ok (rightNest .iff n ns, []) := by
      simpa using bic_chain ns n noAcc [] (g + 6) (by omega) rfl
    exact prop_of_bic hlex (by rw [hg]; exact hbic)

/-- C5 witness: the two literal chains of the claim. -/
theorem parser_chain_associativity_witness :
    prop "P & Q & R" =
      .ok (.and (.and (.atomic "P") (.atomic "Q")) (.atomic "R")) ∧
    prop "P -> Q -> R" =
      .ok (.implies (.atomic "P") (.implies (.atomic "Q") (.atomic "R"))) := by
  have h := parser_chain_associativity "P" ["Q", "R"] (by decide) (by decide)
  constructor
  · rw [show ("P & Q & R" : String) =
      chainStr (sepChars .AND) "P" ["Q", "R"] from rfl]
    exact h.1
  · rw [show ("P -> Q -> R" : String) =
      chainStr (sepChars .IMPLIES) "P" ["Q", "R"] from rfl]
    exact h.2.2.1


/-- C6: under any interpretation in which both operands evaluate, the
`flogic` evaluator computes `And` as boolean conjunction, `Or` as
disjunction, `Implies l r` as `(not l) or r`, and `Iff l r` as boolean
equality of the operand values. -/
theorem evaluator_truth_tables (i : String → Option Bool) (l r : Proposition)
    (a b : Bool)
    (hl : flogicInterpret l i = .ok a) (hr : flogicInterpret r i = .ok b) :
    flogicInterpret (.and l r) i = .ok (a && b) ∧
    flogicInterpret (.or l r) i = .ok (a || b) ∧
    flogicInterpret (.implies l r) i = .ok (!a || b) ∧
    flogicInterpret (.iff l r) i = .ok (a == b) := by
  refine ⟨?_, ?_, ?_, ?_⟩ <;> simp [flogicInterpret, hl, hr]

/-- C6 witness: the three literal truth-table entries of the claim,
obtained from `evaluator_truth_tables` at concrete inputs. -/
theorem evaluator_truth_tables_witness :
    flogicInterpret (.and (.atomic "P") (.atomic "Q")) interpPTrueQFalse = .ok false ∧
    flogicInterpret (.implies (.atomic "P") (.atomic "Q")) interpPFalseQFalse = .ok true ∧
    flogicInterpret (.iff (.atomic "P") (.atomic "Q")) interpPTrueQFalse = .ok false := by
  refine ⟨?_, ?_, ?_⟩
  · exact (evaluator_truth_tables interpPTrueQFalse (.atomic "P") (.atomic "Q")
      true false rfl rfl).1
  · exact (evaluator_truth_tables interpPFalseQFalse (.atomic "P") (.atomic "Q")
      false false rfl rfl).2.2.1
  · exact (evaluator_truth_tables interpPTrueQFalse (.atomic "P") (.atomic "Q")
      true false rfl rfl).2.2.2

/-- C1 counterexample: the `plogic` evaluator (cited by the claim alongside
the `flogic` one) short-circuits: `And(P, Q)` under `{P: false}` with `Q`
unassigned returns `False` instead of raising the unassigned-predicate
error. -/
theorem plogic_and_short_circuits_counterexample :
    plogicInterpret (.and (.atomic "P") (.atomic "Q")) interpPFalseOnly = .ok false := rfl

/-- C1 (amended): the `flogic` evaluator is strict — both operands of every
binary connective are evaluated, and an unassigned-predicate error in
either operand propagates even when the other operand's value already
determines the result; the `plogic` evaluator instead short-circuits
`And`/`Or`/`Implies` on a determining left operand. -/
theorem evaluation_strictness_amended (i : String → Option Bool) (l r : Proposition) :
    (∀ a e, flogicInterpret l i = .ok a → flogicInterpret r i = .error e →
      flogicInterpret (.and l r) i = .error e ∧
      flogicInterpret (.or l r) i = .error e ∧
      flogicInterpret (.implies l r) i = .error e ∧
      flogicInterpret (.iff l r) i = .error e) ∧
    (∀ e, flogicInterpret l i = .error e →
      flogicInterpret (.and l r) i = .error e ∧
      flogicInterpret (.or l r) i = .error e ∧
      flogicInterpret (.implies l r) i = .error e ∧
      flogicInterpret (.iff l r) i = .error e) ∧
    (plogicInterpret l i = .ok false → plogicInterpret (.and l r) i = .ok false) ∧
    (plogicInterpret l i = .ok true → plogicInterpret (.or l r) i = .ok true) ∧
    (plogicInterpret l i = .ok false → plogicInterpret (.implies l r) i = .ok true) := by
  refine ⟨?_, ?_, ?_, ?_, ?_⟩
  · intro a e hl hr
    refine ⟨?_, ?_, ?_, ?_⟩ <;> simp [flogicInterpret, hl, hr]
  · intro e hl
    refine ⟨?_, ?_, ?_, ?_⟩ <;> simp [flogicInterpret, hl]
  · intro h; simp [plogicInterpret, h]
  · intro h; simp [plogicInterpret, h]
  · intro h; simp [plogicInterpret, h]

/-- C1 witness: at `And(P, Q)` under `{P: false}` the `flogic` evaluator
raises while the `plogic` evaluator returns `False`. -/
theorem evaluation_strictness_amended_witness :
    flogicInterpret (.and (.atomic "P") (.atomic "Q")) interpPFalseOnly =
      .error (.valueError "Predicate 'Q' not unassigned when interpreting") ∧
    plogicInterpret (.and (.atomic "P") (.atomic "Q")) interpPFalseOnly = .ok false := by
  constructor
  · exact ((evaluation_strictness_amended interpPFalseOnly (.atomic "P") (.atomic "Q")).1
      false (.valueError "Predicate 'Q' not unassigned when interpreting") rfl rfl).1
  · exact (evaluation_strictness_amended interpPFalseOnly
      (.atomic "P") (.atomic "Q")).2.2.1 rfl

/-- C7 counterexample: `plogic.core.Atomic` (cited by the claim alongside
`flogic.core.Predicate`) performs no name validation: constructing an
atomic named `"123Cats"` succeeds although the name fails the identifier
pattern. -/
theorem plogic_atomic_unvalidated_counterexample :
    plogicAtomicNew "123Cats" = .ok (.atomic "123Cats") ∧
    identFullmatch "123Cats" = false := ⟨rfl, by decide⟩

/-- C7 (amended): `flogic.core.Predicate` validates the name exactly once
at construction — construction succeeds iff the name fully matches
`[A-Za-z_][A-Za-z0-9_]*` and raises `ValueError` otherwise — while
`plogic.core.Atomic` accepts any string without validation. -/
theorem predicate_name_validation_amended (s : String) :
    (identFullmatch s = true → flogicPredicateNew s = .ok (.atomic s)) ∧
    (identFullmatch s = false →
      flogicPredicateNew s =
        .error (.valueError ("Invalid predicate name: '" ++ s ++ "'"))) ∧
    plogicAtomicNew s = .ok (.atomic s) := by
  refine ⟨?_, ?_, rfl⟩ <;> intro h <;> simp [flogicPredicateNew, h]

/-- C7 witness: `"_____"` is accepted and `"123Cats"`, `"Has Spaces"` are
rejected by `flogic`; `plogic` accepts `"Has Spaces"`. -/
theorem predicate_name_validation_amended_witness :
    flogicPredicateNew "_____" = .ok (.atomic "_____") ∧
    flogicPredicateNew "123Cats" =
      .error (.valueError "Invalid predicate name: '123Cats'") ∧
    flogicPredicateNew "Has Spaces" =
      .error (.valueError "Invalid predicate name: 'Has Spaces'") ∧
    plogicAtomicNew "Has Spaces" = .ok (.atomic "Has Spaces") := by
  refine ⟨?_, ?_, ?_, ?_⟩
  · exact (predicate_name_validation_amended "_____").1 (by decide)
  · exact (predicate_name_validation_amended "123Cats").2.1 (by decide)
  · exact (predicate_name_validation_amended "Has Spaces").2.1 (by decide)
  · exact (predicate_name_validation_amended "Has Spaces").2.2

/-- C9: `p[i]` returns the `i`-th immediate child exactly when
`0 ≤ i < degree p` (index 0 is `Not`'s inner operand, indices 0 and 1 a
binary node's left and right operands) and raises `IndexError` otherwise;
a `Predicate` raises for every index. -/
theorem getitem_range (p : Proposition) (i : Int) :
    (0 ≤ i → i < (degree p : Int) →
      getitem p i = .ok ((children p).getD i.toNat (.atomic ""))) ∧
    (i < 0 ∨ (degree p : Int) ≤ i →
      ∃ msg, getitem p i = .error (.indexError msg)) := by
  constructor
  · intro h0 hlt
    cases p with
    | atomic n => simp [degree] at hlt; omega
    | not q =>
        have : i = 0 := by simp [degree] at hlt; omega
        subst this; simp [getitem, children]
    | and l r =>
        have : i = 0 ∨ i = 1 := by simp [degree] at hlt; omega
        rcases this with rfl | rfl <;> simp [getitem, children]
    | or l r =>
        have : i = 0 ∨ i = 1 := by simp [degree] at hlt; omega
        rcases this with rfl | rfl <;> simp [getitem, children]
    | implies l r =>
        have : i = 0 ∨ i = 1 := by simp [degree] at hlt; omega
        rcases this with rfl | rfl <;> simp [getitem, children]
    | iff l r =>
        have : i = 0 ∨ i = 1 := by simp [degree] at hlt; omega
        rcases this with rfl | rfl <;> simp [getitem, children]
  · intro hout
    cases p with
    | atomic n => exact ⟨_, rfl⟩
    | not q =>
        have h0 : ¬ i = 0 := by simp [degree] at hout; omega
        exact ⟨"Expected 0; got " ++ toString i, by simp [getitem, h0]⟩
    | and l r =>
        have h0 : ¬ i = 0 := by simp [degree] at hout; omega
        have h1 : ¬ i = 1 := by simp [degree] at hout; omega
        exact ⟨"Expected 0 or 1; got " ++ toString i, by simp [getitem, h0, h1]⟩
    | or l r =>
        have h0 : ¬ i = 0 := by simp [degree] at hout; omega
        have h1 : ¬ i = 1 := by simp [degree] at hout; omega
        exact ⟨"Expected 0 or 1; got " ++ toString i, by simp [getitem, h0, h1]⟩
    | implies l r =>
        have h0 : ¬ i = 0 := by simp [degree] at hout; omega
        have h1 : ¬ i = 1 := by simp [degree] at hout; omega
        exact ⟨"Expected 0 or 1; got " ++ toString i, by simp [getitem, h0, h1]⟩
    | iff l r =>
        have h0 : ¬ i = 0 := by simp [degree] at hout; omega
        have h1 : ¬ i = 1 := by simp [degree] at hout; omega
        exact ⟨"Expected 0 or 1; got " ++ toString i, by simp [getitem, h0, h1]⟩

/-- C9 witness: valid index 1 of `And(P, Q)` returns `Q`; index 0 on a
bare predicate raises `IndexError`. -/
theorem getitem_range_witness :
    getitem (.and (.atomic "P") (.atomic "Q")) 1 = .ok (.atomic "Q") ∧
    (∃ msg, getitem (.atomic "P") 0 = .error (.indexError msg)) := by
  constructor
  · have h := (getitem_range (.and (.atomic "P") (.atomic "Q")) 1).1
      (by decide) (by decide)
    simpa [children] using h
  · exact (getitem_range (.atomic "P") 0).2 (by decide)

/-- C10: iteration yields exactly `degree p` children in left-to-right
order (inner for `Not`, left then right for binary nodes, nothing for a
predicate), and indexing agrees with iteration position by position. -/
theorem accessor_coherence (p : Proposition) :
    (children p).length = degree p ∧
    (∀ n, children (.atomic n) = ([] : List Proposition)) ∧
    (∀ q, children (.not q) = [q]) ∧
    (∀ l r, children (.and l r) = [l, r] ∧ children (.or l r) = [l, r] ∧
      children (.implies l r) = [l, r] ∧ children (.iff l r) = [l, r]) ∧
    (∀ i : Nat, ∀ h : i < (children p).length,
      getitem p (i : Int) = .ok ((children p).get ⟨i, h⟩)) := by
  refine ⟨?_, fun n => rfl, fun q => rfl, fun l r => ⟨rfl, rfl, rfl, rfl⟩, ?_⟩
  · cases p <;> rfl
  · intro i h
    cases p with
    | atomic n => simp [children] at h
    | not q =>
        match i, h with
        | 0, _ => simp [getitem, children]
    | and l r =>
        match i, h with
        | 0, _ => simp [getitem, children]
        | 1, _ => simp [getitem, children]
    | or l r =>
        match i, h with
        | 0, _ => simp [getitem, children]
        | 1, _ => simp [getitem, children]
    | implies l r =>
        match i, h with
        | 0, _ => simp [getitem, children]
        | 1, _ => simp [getitem, children]
    | iff l r =>
        match i, h with
        | 0, _ => simp [getitem, children]
        | 1, _ => simp [getitem, children]

/-- C10 witness: position 0 of `Implies(P, Q)`'s iteration is also what
indexing returns. -/
theorem accessor_coherence_witness :
    getitem (.implies (.atomic "P") (.atomic "Q")) (0 : Nat) =
      .ok ((children (.implies (.atomic "P") (.atomic "Q"))).get
        ⟨0, by decide⟩) := by
  exact (accessor_coherence (.implies (.atomic "P") (.atomic "Q"))).2.2.2.2 0 (by decide)

/-- C4: precedence — parsing `"P <-> Q -> R | S & ~T"` yields exactly
`Iff(P, Implies(Q, Or(R, And(S, Not(T)))))`: `~` binds tightest, then `&`,
`|`, `->`, with `<->` loosest. -/
theorem parser_precedence :
    prop "P <-> Q -> R | S & ~T" =
      .ok (.iff (.atomic "P") (.implies (.atomic "Q")
        (.or (.atomic "R") (.and (.atomic "S") (.not (.atomic "T")))))) := rfl

/-- C8 counterexample: `prop ""` fails with a bare `StopIteration` leaked
from `_Parser.__init__` (which calls `next` without a default), not with
the parser's `ValueError` carrying the distinguished end-of-input
message. -/
theorem empty_input_stop_iteration_counterexample :
    prop "" = .error .stopIteration ∧
    PyError.stopIteration ≠ PyError.valueError _UNEXP_END_OF_STR := ⟨rfl, by decide⟩

/-- C8 (amended): parsing an empty or whitespace-only input fails, but with
an unhandled `StopIteration` from `_Parser.__init__`, a different error
category from the `ValueError` end-of-input syntax error raised when input
ends where a unit was required mid-parse (e.g. `"~"` or `"(P"`). -/
theorem empty_input_error_category :
    prop "" = .error .stopIteration ∧
    prop " \t\r\n" = .error .stopIteration ∧
    prop "~" = .error (.valueError _UNEXP_END_OF_STR) ∧
    prop "(P" = .error (.valueError _UNEXP_END_OF_STR) := ⟨rfl, rfl, rfl, rfl⟩

/-- C3 counterexample: `prop "P Q"` (a complete formula `P` followed by the
trailing token `Q`) succeeds and returns the formula parsed from the
leading tokens instead of failing. -/
theorem prop_ignores_trailing_tokens_counterexample :
    prop "P Q" = .ok (.atomic "P") := rfl

end ClassicalLogic
